import Mathlib

/-!
# Verification of the LinkedIn job-enrichment extraction pipeline

Shallow embedding of the extractor core of the pipeline
(`extractor/extract_skills_v3.py`, `extractor/industry_categorisation.py`,
`extractor/job_extractor.py`) and proofs about the claims of the spec.

Conventions used throughout:
* Python strings are modelled as `String`/`List Char`; the Unicode
  whitespace set of `str.isspace` (which coincides with the `re` module's
  `\s` for `str` patterns) and the `str.splitlines` boundary set are
  reproduced code point by code point.
* Python/JSON values are modelled by the inductive type `JVal`; numerals
  are rationals (no floating point is relied upon by any claim).
* Fallible Python code (code that can raise) is modelled in `Except String`;
  `try/except` blocks become matches on the `Except` value.
* The generative backend is abstracted by the per-attempt outcome type
  `LlmAttempt` (the network itself is outside the program); `time.sleep`
  calls are recorded in an explicit trace of slept durations.
-/

namespace LIPipe

/-- The characters Python's `str.isspace` accepts (identical to the set
matched by `\s` in `re` patterns over `str`).  Verified against CPython. -/
def isPyWs (c : Char) : Bool :=
  c.val = 0x9 || c.val = 0xa || c.val = 0xb || c.val = 0xc || c.val = 0xd ||
  c.val = 0x1c || c.val = 0x1d || c.val = 0x1e || c.val = 0x1f || c.val = 0x20 ||
  c.val = 0x85 || c.val = 0xa0 || c.val = 0x1680 ||
  (0x2000 ≤ c.val && c.val ≤ 0x200a) ||
  c.val = 0x2028 || c.val = 0x2029 || c.val = 0x202f || c.val = 0x205f || c.val = 0x3000

/-- The characters `str.splitlines` treats as line boundaries
(`\n \v \f \r \x1c \x1d \x1e \x85    `; `\r\n` counts as one
boundary).  Verified against CPython. -/
def isLineBoundChar (c : Char) : Bool :=
  c.val = 0xa || c.val = 0xb || c.val = 0xc || c.val = 0xd ||
  c.val = 0x1c || c.val = 0x1d || c.val = 0x1e || c.val = 0x85 ||
  c.val = 0x2028 || c.val = 0x2029

/-- Whitespace other than a line feed (`\s` minus `\n`). -/
def wsNN (c : Char) : Bool := isPyWs c && c ≠ '\n'

/-- `l.strip()`-style removal of leading whitespace. -/
def lstripL (l : List Char) : List Char := l.dropWhile isPyWs

/-- `l.strip()`-style removal of trailing whitespace. -/
def rstripL (l : List Char) : List Char := (l.reverse.dropWhile isPyWs).reverse

/-- Python `str.strip()` on a list of characters. -/
def stripL (l : List Char) : List Char := rstripL (lstripL l)

/-- Python `str.strip()`. -/
def pyStrip (s : String) : String := String.mk (stripL s.data)

/-- `text.replace('\t', ' ')`. -/
def replTab (l : List Char) : List Char := l.map (fun c => if c = '\t' then ' ' else c)

/-- `text.replace('\r\n', '\n')` (left-to-right, non-overlapping). -/
def replCRLF : List Char → List Char
  | [] => []
  | '\r' :: '\n' :: t => '\n' :: replCRLF t
  | c :: t => c :: replCRLF t

/-- `text.replace('\r', '\n')`. -/
def replCR (l : List Char) : List Char := l.map (fun c => if c = '\r' then '\n' else c)

/-- Length of the span matched by `re.sub(r'\n\s*\n+', ...)` after a leading
`'\n'`: the regex backtracks `\s*` so that the match extends exactly through
the last `'\n'` of the maximal whitespace run following the leading `'\n'`
(verified against CPython `re`).  `none` when the run has no `'\n'`. -/
def nlMatchLen (t : List Char) : Option Nat :=
  let run := t.takeWhile isPyWs
  if '\n' ∈ run then some (run.reverse.dropWhile (fun c => c ≠ '\n')).length else none

/-- Fuelled worker for `nlSub`; each step consumes at least one character,
so fuel `l.length` always suffices (structural recursion keeps the function
kernel-reducible). -/
def nlSubF : Nat → List Char → List Char
  | _, [] => []
  | 0, l => l
  | fuel + 1, c :: t =>
    if c = '\n' then
      match nlMatchLen t with
      | some k => '\n' :: '\n' :: nlSubF fuel (t.drop k)
      | none => '\n' :: nlSubF fuel t
    else c :: nlSubF fuel t

/-- `re.sub(r'\n\s*\n+', '\n\n', text)`: collapse every blank-line block to a
single blank line.  Leftmost scan; each match is replaced by `"\n\n"` and
scanning resumes after the match. -/
def nlSub (l : List Char) : List Char := nlSubF l.length l

/-- Worker for `str.splitlines`: accumulates the current (reversed) line. -/
def splitlinesGo : List Char → List Char → List (List Char)
  | [], cur => if cur.isEmpty then [] else [cur.reverse]
  | '\r' :: '\n' :: r, cur => cur.reverse :: splitlinesGo r []
  | c :: t, cur =>
    if isLineBoundChar c then cur.reverse :: splitlinesGo t []
    else splitlinesGo t (c :: cur)

/-- Python `str.splitlines()` (a trailing boundary produces no empty final
line; `"\r\n"` is a single boundary). -/
def splitlinesPy (l : List Char) : List (List Char) := splitlinesGo l []

/-- `'\n'.join(...)` on character lists. -/
def joinNL : List (List Char) → List Char
  | [] => []
  | [l] => l
  | l :: ls => l ++ '\n' :: joinNL ls

/-- `'\n'.join(line.strip() for line in text.splitlines())`. -/
def joinStripLines (l : List Char) : List Char := joinNL ((splitlinesPy l).map stripL)

/-- Fuelled worker for `spaceSub` (fuel `l.length` always suffices). -/
def spaceSubF : Nat → List Char → List Char
  | _, [] => []
  | 0, l => l
  | fuel + 1, c :: t =>
    if c = ' ' then
      if t.head? = some ' ' then ' ' :: spaceSubF fuel (t.dropWhile (fun d => d = ' '))
      else ' ' :: spaceSubF fuel t
    else c :: spaceSubF fuel t

/-- `re.sub(r' {2,}', ' ', text)`: collapse every run of two or more literal
spaces to a single space. -/
def spaceSub (l : List Char) : List Char := spaceSubF l.length l

/-- `clean_job_description` (extract_skills_v3.py, lines 10-15), the text
normalizer: tabs to spaces, line endings to `\n`, blank-line runs collapsed,
per-line strip, interior space runs collapsed, outer strip. -/
def clean_job_description (s : String) : String :=
  let t := replCR (replCRLF (replTab s.data))
  let t := nlSub t
  let t := joinStripLines t
  let t := spaceSub t
  String.mk (stripL t)

/-! ## Python/JSON values -/

/-- Python/JSON values as they occur in the pipeline.  Numerals are
rationals (`json.loads` parses ints and decimal floats; no claim depends on
binary floating point or on the non-finite extensions `NaN`/`Infinity`,
which this embedding rejects). -/
inductive JVal where
  | null
  | bool (b : Bool)
  | num (q : ℚ)
  | str (s : String)
  | arr (xs : List JVal)
  | obj (kvs : List (String × JVal))
deriving Repr

/-- First-match lookup in an association list.  All dictionaries in this
development are built with `dictSet`, which keeps keys unique, so this
agrees with Python `dict` lookup. -/
def lookupA {α : Type} : List (String × α) → String → Option α
  | [], _ => none
  | (k, v) :: t, key => if k = key then some v else lookupA t key

/-- Python `d[k] = v`: replace the value in place if the key exists
(keeping its insertion position), else append. -/
def dictSet {α : Type} : List (String × α) → String → α → List (String × α)
  | [], k, v => [(k, v)]
  | (k', v') :: t, k, v => if k' = k then (k', v) :: t else (k', v') :: dictSet t k v

/-- Build a Python dict from a sequence of pairs (later duplicates
overwrite earlier values, first insertion keeps its position). -/
def dictOf {α : Type} (ps : List (String × α)) : List (String × α) :=
  ps.foldl (fun d kv => dictSet d kv.1 kv.2) []

/-- Python truthiness of a value. -/
def pyTruthy : JVal → Bool
  | .null => false
  | .bool b => b
  | .num q => q ≠ 0
  | .str s => s ≠ ""
  | .arr xs => !xs.isEmpty
  | .obj kvs => !kvs.isEmpty

/-- `sep.join(parts)`. -/
def joinSep (sep : String) : List String → String
  | [] => ""
  | [s] => s
  | s :: t => s ++ sep ++ joinSep sep t

/-- The decimal digit character for `n < 10`. -/
def digitCh (n : Nat) : Char := Char.ofNat (48 + n)

/-- Fuelled most-significant-first decimal digits (fuel `n + 1`
suffices). -/
def natDigitsF : Nat → Nat → List Char
  | 0, _ => []
  | fuel + 1, n =>
    if n < 10 then [digitCh n] else natDigitsF fuel (n / 10) ++ [digitCh (n % 10)]

/-- Decimal rendering of an integer, as characters. -/
def intReprL (i : Int) : List Char :=
  if i < 0 then '-' :: natDigitsF (i.natAbs + 1) i.natAbs
  else natDigitsF (i.natAbs + 1) i.natAbs

/-- Decimal rendering of an integer. -/
def intRepr (i : Int) : String := String.mk (intReprL i)

/-- Rendering of a rational numeral.  Integer values render exactly as
Python does; the rendering of non-integer values is abstracted (no claim
inspects it beyond non-emptiness). -/
def ratRepr (q : ℚ) : String :=
  if q.den = 1 then intRepr q.num
  else String.mk (intReprL q.num ++ '/' :: intReprL (q.den : Int))

/-- Fuelled `repr`-style rendering of containers (fuel bounds nesting
depth). -/
def pyReprF : Nat → JVal → String
  | _, .null => "None"
  | _, .bool true => "True"
  | _, .bool false => "False"
  | _, .num q => ratRepr q
  | _, .str s => "'" ++ s ++ "'"
  | 0, .arr _ => "[...]"
  | 0, .obj _ => "{...}"
  | fuel + 1, .arr xs => "[" ++ joinSep ", " (xs.map (pyReprF fuel)) ++ "]"
  | fuel + 1, .obj kvs =>
    "\x7b" ++ joinSep ", " (kvs.map (fun kv => "'" ++ kv.1 ++ "': " ++ pyReprF fuel kv.2)) ++ "\x7d"

/-- Python `str(v)`: a string renders as itself, containers/atoms via their
`repr` (quoting of nested strings abstracted; claims rely only on the
string case and on non-emptiness elsewhere). -/
def pyStr (v : JVal) : String :=
  match v with
  | .str s => s
  | v => pyReprF 1000 v

/-- Python `str.lower()` (faithful on ASCII, which is all the pipeline's
taxonomy keys use). -/
def pyLower (s : String) : String := String.mk (s.data.map Char.toLower)

/-- Python `needle in hay` substring test. -/
def pyIn (needle hay : String) : Bool :=
  hay.data.tails.any (fun t => needle.data.isPrefixOf t)

/-- Fuelled worker for `str.replace` (left-to-right, non-overlapping;
fuel `l.length` suffices for a non-empty pattern). -/
def replaceAllF (old new : List Char) : Nat → List Char → List Char
  | _, [] => []
  | 0, l => l
  | fuel + 1, c :: t =>
    if old.isPrefixOf (c :: t) then new ++ replaceAllF old new fuel ((c :: t).drop old.length)
    else c :: replaceAllF old new fuel t

/-- Python `s.replace(old, new)`.  The pipeline never calls `replace` with
an empty pattern, so that case is returned unchanged. -/
def pyReplace (s old new : String) : String :=
  if old = "" then s else String.mk (replaceAllF old.data new.data s.data.length s.data)

/-! ## Strict JSON parsing (`json.loads`) and `ast.literal_eval`

One fuelled recursive-descent parser serves both entry points; the mode
selects the keyword spellings (`true/false/null` vs `True/False/None`),
quote and sign liberality, and tuple/trailing-comma tolerance.  Deviations
from CPython, none of which any claim exercises: `NaN/Infinity` numerals
are rejected, leading-zero integers are accepted, surrogate `\uXXXX`
escapes are abstracted, and Python set literals are rejected. -/

inductive PMode where
  | json
  | pyLit
deriving DecidableEq, Repr

/-- Whitespace skipped between JSON tokens (`json.loads` skips exactly
these four). -/
def jsonWs (c : Char) : Bool := c = ' ' || c = '\t' || c = '\n' || c = '\r'

/-- Skip inter-token whitespace. -/
def skipWs (l : List Char) : List Char := l.dropWhile jsonWs

/-- Value of one hex digit. -/
def hexVal (c : Char) : Option Nat :=
  if '0' ≤ c ∧ c ≤ '9' then some (c.toNat - 48)
  else if 'a' ≤ c ∧ c ≤ 'f' then some (c.toNat - 87)
  else if 'A' ≤ c ∧ c ≤ 'F' then some (c.toNat - 55)
  else none

/-- Single-character escapes accepted inside string literals. -/
def escChar (qc e : Char) : Option Char :=
  if e = '"' then some '"'
  else if e = '\\' then some '\\'
  else if e = '/' then some '/'
  else if e = 'b' then some '\x08'
  else if e = 'f' then some '\x0c'
  else if e = 'n' then some '\n'
  else if e = 'r' then some '\r'
  else if e = 't' then some '\t'
  else if e = qc then some qc
  else none

/-- Fuelled string-literal body parser (opening quote already consumed);
returns the decoded characters and the rest of the input. -/
def parseJStr (qc : Char) : Nat → List Char → Except String (List Char × List Char)
  | _, [] => .error "Unterminated string"
  | 0, _ => .error "out of fuel"
  | fuel + 1, c :: t =>
    if c = qc then .ok ([], t)
    else if c = '\\' then
      match t with
      | 'u' :: h1 :: h2 :: h3 :: h4 :: r =>
        match hexVal h1, hexVal h2, hexVal h3, hexVal h4 with
        | some a, some b, some c2, some d =>
          (parseJStr qc fuel r).map
            (fun p => (Char.ofNat (((a * 16 + b) * 16 + c2) * 16 + d) :: p.1, p.2))
        | _, _, _, _ => .error "Invalid \\uXXXX escape"
      | e :: r =>
        match escChar qc e with
        | some ce => (parseJStr qc fuel r).map (fun p => (ce :: p.1, p.2))
        | none => .error "Invalid \\escape"
      | [] => .error "Unterminated string"
    else if c.val < 0x20 then .error "Invalid control character"
    else (parseJStr qc fuel t).map (fun p => (c :: p.1, p.2))

/-- Numeric value of a digit run. -/
def digitsToNat (ds : List Char) : Nat := ds.foldl (fun a c => a * 10 + (c.toNat - 48)) 0

/-- Parse digits, optional fraction and optional exponent (sign already
consumed). -/
def parseNumCore (neg : Bool) (l : List Char) : Except String (ℚ × List Char) :=
  let ip := l.takeWhile Char.isDigit
  if ip.isEmpty then .error "Expecting value"
  else
    let rest := l.drop ip.length
    let fracState : Nat × Nat × List Char :=
      match rest with
      | '.' :: t2 =>
        let fp := t2.takeWhile Char.isDigit
        (digitsToNat fp, fp.length, t2.drop fp.length)
      | _ => (0, 0, rest)
    let rest2 := fracState.2.2
    let expState : Except String (Int × List Char) :=
      match rest2 with
      | 'e' :: t3 =>
        match t3 with
        | '-' :: t4 =>
          let ep := t4.takeWhile Char.isDigit
          if ep.isEmpty then .error "Expecting digits in exponent"
          else .ok (-(digitsToNat ep : Int), t4.drop ep.length)
        | '+' :: t4 =>
          let ep := t4.takeWhile Char.isDigit
          if ep.isEmpty then .error "Expecting digits in exponent"
          else .ok ((digitsToNat ep : Int), t4.drop ep.length)
        | _ =>
          let ep := t3.takeWhile Char.isDigit
          if ep.isEmpty then .error "Expecting digits in exponent"
          else .ok ((digitsToNat ep : Int), t3.drop ep.length)
      | 'E' :: t3 =>
        match t3 with
        | '-' :: t4 =>
          let ep := t4.takeWhile Char.isDigit
          if ep.isEmpty then .error "Expecting digits in exponent"
          else .ok (-(digitsToNat ep : Int), t4.drop ep.length)
        | '+' :: t4 =>
          let ep := t4.takeWhile Char.isDigit
          if ep.isEmpty then .error "Expecting digits in exponent"
          else .ok ((digitsToNat ep : Int), t4.drop ep.length)
        | _ =>
          let ep := t3.takeWhile Char.isDigit
          if ep.isEmpty then .error "Expecting digits in exponent"
          else .ok ((digitsToNat ep : Int), t3.drop ep.length)
      | _ => .ok (0, rest2)
    expState.map (fun es =>
      -- value = (intpart·10^fl + fracpart) · 10^exp / 10^fl, built with
      -- `mkRat` and integer arithmetic (kernel-reducible)
      let scaledNum : Int := (digitsToNat ip * 10 ^ fracState.2.1 + fracState.1 : Nat)
      let upExp : Nat := es.1.toNat
      let downExp : Nat := (-es.1).toNat
      let signedNum : Int := if neg then -(scaledNum * 10 ^ upExp) else scaledNum * 10 ^ upExp
      (mkRat signedNum (10 ^ fracState.2.1 * 10 ^ downExp), es.2))

/-- Parse a numeral (JSON admits `-`; Python literals also admit `+`). -/
def parseNum (mode : PMode) (l : List Char) : Except String (ℚ × List Char) :=
  match l with
  | '-' :: t => parseNumCore true t
  | '+' :: t => if mode = .pyLit then parseNumCore false t else .error "Expecting value"
  | _ => parseNumCore false l

/-- Worklist item of the recursive-descent parser: a value, the members of
an object, or the members of an array/tuple (with its closing bracket). -/
inductive PJob where
  | val (l : List Char)
  | objItems (l : List Char) (acc : List (String × JVal)) (first : Bool)
  | arrItems (l : List Char) (acc : List JVal) (first : Bool) (close : Char)

/-- Fuelled recursive-descent parser for strict JSON / Python literals.
Every recursive call strictly consumes input, so fuel `length + 1`
suffices. -/
def parseF (mode : PMode) : Nat → PJob → Except String (JVal × List Char)
  | 0, _ => .error "out of fuel"
  | fuel + 1, .val l =>
    match skipWs l with
    | [] => .error "Expecting value"
    | '{' :: t => parseF mode fuel (.objItems t [] true)
    | '[' :: t => parseF mode fuel (.arrItems t [] true ']')
    | '(' :: t =>
      if mode = .pyLit then parseF mode fuel (.arrItems t [] true ')')
      else .error "Expecting value"
    | '"' :: t => (parseJStr '"' t.length t).map (fun p => (JVal.str (String.mk p.1), p.2))
    | '\'' :: t =>
      if mode = .pyLit then
        (parseJStr '\'' t.length t).map (fun p => (JVal.str (String.mk p.1), p.2))
      else .error "Expecting value"
    | l2 =>
      if mode = .json ∧ "true".data.isPrefixOf l2 then .ok (.bool true, l2.drop 4)
      else if mode = .json ∧ "false".data.isPrefixOf l2 then .ok (.bool false, l2.drop 5)
      else if mode = .json ∧ "null".data.isPrefixOf l2 then .ok (.null, l2.drop 4)
      else if mode = .pyLit ∧ "True".data.isPrefixOf l2 then .ok (.bool true, l2.drop 4)
      else if mode = .pyLit ∧ "False".data.isPrefixOf l2 then .ok (.bool false, l2.drop 5)
      else if mode = .pyLit ∧ "None".data.isPrefixOf l2 then .ok (.null, l2.drop 4)
      else (parseNum mode l2).map (fun p => (JVal.num p.1, p.2))
  | fuel + 1, .objItems l acc first =>
    match skipWs l with
    | '}' :: t =>
      if first ∨ mode = .pyLit then .ok (.obj acc, t)
      else .error "Expecting property name enclosed in double quotes"
    | l2 => do
      let kr ← (match l2 with
        | '"' :: t => (parseJStr '"' t.length t).map (fun p => (String.mk p.1, p.2))
        | '\'' :: t =>
          if mode = .pyLit then (parseJStr '\'' t.length t).map (fun p => (String.mk p.1, p.2))
          else Except.error "Expecting property name enclosed in double quotes"
        | _ => Except.error "Expecting property name enclosed in double quotes")
      match skipWs kr.2 with
      | ':' :: r2 => do
        let vr ← parseF mode fuel (.val r2)
        let acc2 := dictSet acc kr.1 vr.1
        match skipWs vr.2 with
        | ',' :: r5 => parseF mode fuel (.objItems r5 acc2 false)
        | '}' :: r5 => .ok (.obj acc2, r5)
        | _ => .error "Expecting , delimiter"
      | _ => .error "Expecting : delimiter"
  | fuel + 1, .arrItems l acc first close =>
    match skipWs l with
    | [] => .error "Expecting value"
    | c :: t =>
      if c = close then
        if first ∨ mode = .pyLit then .ok (.arr acc.reverse, t)
        else .error "Expecting value"
      else do
        let vr ← parseF mode fuel (.val (c :: t))
        match skipWs vr.2 with
        | ',' :: r5 => parseF mode fuel (.arrItems r5 (vr.1 :: acc) false close)
        | c2 :: r5 =>
          if c2 = close then
            -- `(expr)` without a comma is a parenthesized value, not a tuple
            if close = ')' ∧ acc.isEmpty then .ok (vr.1, r5)
            else .ok (.arr (vr.1 :: acc).reverse, r5)
          else .error "Expecting , delimiter"
        | [] => .error "Expecting , delimiter"

/-- `json.loads` (strict mode): parse one value and require only
whitespace after it. -/
def parseJson (s : String) : Except String JVal := do
  let vr ← parseF .json (s.data.length + 1) (.val s.data)
  if (skipWs vr.2).isEmpty then pure vr.1 else .error "Extra data"

/-- `ast.literal_eval`, restricted to the literal fragment the pipeline
can meet (strings, numbers, `True/False/None`, lists, tuples, dicts). -/
def pyLiteralEval (s : String) : Except String JVal := do
  let vr ← parseF .pyLit (s.data.length + 1) (.val s.data)
  if (skipWs vr.2).isEmpty then pure vr.1 else .error "malformed node or string"

/-! ## The regex repair passes of `safe_json_parse`

Each engine is a leftmost scan that deletes matched spans, mirroring the
corresponding `re.sub(..., '', ...)`; all were differential-tested against
CPython `re` on randomized inputs. -/

/-- `re.sub(r'(?<!:)//\s.*$', '', text, flags=re.MULTILINE)`: drop `// ...`
comments (not preceded by `:`); the `\s` may itself be a newline, in which
case the match swallows the following line, exactly as CPython does.
`prev` tracks the previous character of the *input* for the look-behind. -/
def lcSubF : Nat → Option Char → List Char → List Char
  | _, _, [] => []
  | 0, _, l => l
  | fuel + 1, prev, '/' :: '/' :: w :: r =>
    if prev ≠ some ':' ∧ isPyWs w then
      let taken := r.takeWhile (fun d => d ≠ '\n')
      lcSubF fuel (some (taken.getLast?.getD w)) (r.drop taken.length)
    else '/' :: lcSubF fuel (some '/') ('/' :: w :: r)
  | fuel + 1, _, c :: t => c :: lcSubF fuel (some c) t

/-- Lazy search used by `\(".*?"\)`: least number of non-newline characters
before a `"` immediately followed by `)`. -/
def lazyQP : List Char → Option Nat
  | '"' :: ')' :: _ => some 0
  | c :: t => if c = '\n' then none else (lazyQP t).map (· + 1)
  | [] => none

/-- Lazy search for a closing character on the current line: least number
of non-newline characters before `close`. -/
def lazyClose (close : Char) : List Char → Option Nat
  | c :: t =>
    if c = close then some 0
    else if c = '\n' then none
    else (lazyClose close t).map (· + 1)
  | [] => none

/-- Length matched at the current position by the first alternative
`\(".*?"\)`: `(`, `"`, a lazily minimal non-newline middle, `"`, `)`. -/
def alt1Len (l : List Char) : Option Nat :=
  match l with
  | '(' :: t =>
    if t.head? = some '"' then (lazyQP t.tail).map (fun u => u + 4) else none
  | _ => none

/-- Length matched at the current position by the second alternative
`\s*\(.*?\)`: a greedy whitespace run that must end exactly at a `(`
(backtracking cannot shorten it since `(` is not whitespace), then a
lazily minimal non-newline middle, then `)`. -/
def alt2Len (l : List Char) : Option Nat :=
  let run := l.takeWhile isPyWs
  match l.drop run.length with
  | '(' :: t2 => (lazyClose ')' t2).map (fun u => run.length + 1 + u + 1)
  | _ => none

/-- `re.sub(r'\(".*?"\)|\s*\(.*?\)', '', text)`: drop quoted-parenthetical
and (with any leading whitespace) plain parenthetical annotations; the
first alternative is preferred at each position. -/
def parenSubF : Nat → List Char → List Char
  | _, [] => []
  | 0, l => l
  | fuel + 1, c :: t =>
    match alt1Len (c :: t) with
    | some k => parenSubF fuel ((c :: t).drop k)
    | none =>
      match alt2Len (c :: t) with
      | some k => parenSubF fuel ((c :: t).drop k)
      | none => c :: parenSubF fuel t

/-- The second-alternative-only paren stripper used per line in step 2:
`re.sub(r'\s*\(.*?\)', '', line)`. -/
def parenSub2F : Nat → List Char → List Char
  | _, [] => []
  | 0, l => l
  | fuel + 1, c :: t =>
    match alt2Len (c :: t) with
    | some k => parenSub2F fuel ((c :: t).drop k)
    | none => c :: parenSub2F fuel t

/-- `re.sub(r'<.*?>', '', text)`: drop angle-bracket tags. -/
def angleSubF : Nat → List Char → List Char
  | _, [] => []
  | 0, l => l
  | fuel + 1, c :: t =>
    if c = '<' then
      match lazyClose '>' t with
      | some u => angleSubF fuel (t.drop (u + 1))
      | none => '<' :: angleSubF fuel t
    else c :: angleSubF fuel t

/-- `re.sub(r',(\s*[}\]])', r'\1', text)`: delete a trailing comma that is
followed (up to whitespace) by `}` or `]`. -/
def commaSubF : Nat → List Char → List Char
  | _, [] => []
  | 0, l => l
  | fuel + 1, ',' :: t =>
    let run := t.takeWhile isPyWs
    match t.drop run.length with
    | c :: _ =>
      if c = '}' ∨ c = ']' then run ++ c :: commaSubF fuel (t.drop (run.length + 1))
      else ',' :: commaSubF fuel t
    | [] => ',' :: commaSubF fuel t
  | fuel + 1, c :: t => c :: commaSubF fuel t

/-- `re.search(r'{.*}', text, re.DOTALL)`: the span from the first `{` that
still has a `}` somewhere after it, through the last `}` of the text. -/
def braceSpan (l : List Char) : Option (List Char) :=
  match l.findIdx? (fun c => c = '{'), l.reverse.findIdx? (fun c => c = '}') with
  | some i, some jr =>
    let j := l.length - 1 - jr
    if i < j then some ((l.drop i).take (j - i + 1)) else none
  | _, _ => none

/-- The keep condition of the step-2 line walk: the stripped line starts
with `"` or ends with one of `}` `]` `,` `{` `[`. -/
def keepLine (line : List Char) : Bool :=
  let stripped := stripL line
  stripped.head? = some '"' ||
    ['}', ']', ',', '{', '['].any (fun x => stripped.getLast? = some x)

/-- The step-2 walk: keep lines while they look like structured content
(cleaning each kept line again), stop at the first that does not. -/
def goodLinesWalk : List (List Char) → List (List Char)
  | [] => []
  | line :: rest =>
    if keepLine line then
      let lineClean := parenSub2F line.length line
      let lineClean := lcSubF lineClean.length none lineClean
      lineClean :: goodLinesWalk rest
    else []

/-- `safe_json_parse` (extract_skills_v3.py, lines 19-95).  Python raises
`ValueError`/`JSONDecodeError` out of this function; raising is modelled by
`Except.error`. -/
def safe_json_parse (text : String) : Except String JVal :=
  -- Step 0: strip comment, parenthetical and angle-bracket artifacts
  let t := lcSubF text.data.length none text.data
  let t := parenSubF t.length t
  let t := angleSubF t.length t
  -- Step 1: direct extraction of the {...} span
  let direct : Option JVal :=
    match braceSpan t with
    | some span =>
      match parseJson (String.mk span) with
      | .ok v => some v
      | .error _ => none
    | none => none
  match direct with
  | some v => .ok v
  | none =>
    -- Step 2: smart reconstruction from the first '{'
    match t.findIdx? (fun c => c = '{') with
    | none => .error "No JSON object found in LLM output"
    | some i =>
      let jsonStr := stripL (t.drop i)
      let jsonLines := goodLinesWalk (splitlinesPy jsonStr)
      if jsonLines.isEmpty then .error "No JSON-like content found in LLM output"
      else
        let repaired := joinNL jsonLines
        let repaired :=
          if (rstripL repaired).getLast? = some '}' then repaired
          else rstripL repaired ++ ['\n', '}']
        let repaired := commaSubF repaired.length repaired
        -- Step 3: strict parse, then permissive literal evaluation
        match parseJson (String.mk repaired) with
        | .ok v => .ok v
        | .error _ =>
          let altStr :=
            pyReplace (pyReplace (pyReplace (String.mk repaired)
              "true" "True") "false" "False") "null" "None"
          match pyLiteralEval altStr with
          | .ok v => .ok v
          | .error e => .error e

/-! ## Taxonomy resolution (`map_skill_with_synonyms_verbose`)

The fuzzy scorer reproduces `rapidfuzz.fuzz.token_sort_ratio`: both sides
are whitespace-tokenized, the tokens sorted and re-joined with single
spaces, and the normalized InDel similarity is scored on a 0–100 scale
(`100·(1 − dist/(|a|+|b|)) = 200·lcs(a,b)/(|a|+|b|)`, `100` when both
sides are empty).  `process.extractOne` returns the first choice attaining
the maximum score, or `None` for an empty choice list. -/

/-- Fuelled longest-common-subsequence length (fuel `|a|+|b|` suffices). -/
def lcsLenF : Nat → List Char → List Char → Nat
  | 0, _, _ => 0
  | fuel + 1, a :: as, b :: bs =>
    if a = b then lcsLenF fuel as bs + 1
    else max (lcsLenF fuel (a :: as) bs) (lcsLenF fuel as (b :: bs))
  | _, _, _ => 0

/-- Longest-common-subsequence length of two strings. -/
def lcsLen (a b : List Char) : Nat := lcsLenF (a.length + b.length) a b

/-- Worker for Python `str.split()` (split on whitespace runs, no empty
tokens). -/
def splitWsGo : List Char → List Char → List String
  | [], cur => if cur.isEmpty then [] else [String.mk cur.reverse]
  | c :: t, cur =>
    if isPyWs c then
      if cur.isEmpty then splitWsGo t [] else String.mk cur.reverse :: splitWsGo t []
    else splitWsGo t (c :: cur)

/-- Python `str.split()`. -/
def pySplitWs (s : String) : List String := splitWsGo s.data []

/-- Code-point lexicographic `≤` on strings (Python's default sort key). -/
def lexLe : List Char → List Char → Bool
  | [], _ => true
  | _ :: _, [] => false
  | a :: as, b :: bs => if a = b then lexLe as bs else decide (a.val < b.val)

/-- Stable insertion into a sorted list. -/
def insSorted (s : String) : List String → List String
  | [] => [s]
  | x :: t => if lexLe s.data x.data then s :: x :: t else x :: insSorted s t

/-- Python `sorted` (insertion sort; stability is irrelevant since only
equal strings can tie). -/
def sortStrs : List String → List String
  | [] => []
  | x :: t => insSorted x (sortStrs t)

/-- `" ".join(sorted(s.split()))`, the token-sort preprocessing. -/
def tokenSortPrep (s : String) : String := joinSep " " (sortStrs (pySplitWs s))

/-- Normalized InDel similarity on a 0–100 scale. -/
def indelSim (a b : String) : ℚ :=
  let la := a.data.length
  let lb := b.data.length
  if la + lb = 0 then 100 else mkRat (200 * lcsLen a.data b.data) (la + lb)

/-- `rapidfuzz.fuzz.token_sort_ratio`. -/
def tokenSortScore (a b : String) : ℚ := indelSim (tokenSortPrep a) (tokenSortPrep b)

/-- `rapidfuzz.process.extractOne(query, choices, scorer=token_sort_ratio)`:
best-scoring choice, first one kept on ties, `none` for no choices. -/
def extractOneTS (query : String) (choices : List String) : Option (String × ℚ) :=
  choices.foldl (fun acc c =>
    match acc with
    | none => some (c, tokenSortScore query c)
    | some (b, bs) =>
      if tokenSortScore query c > bs then some (c, tokenSortScore query c)
      else some (b, bs)) none

/-- The result dict `{"mapped_to": ..., "ID": ...}` of the resolver
(`none` models Python `None`). -/
structure MappedSkill where
  mapped_to : Option String
  id : Option JVal
deriving Repr

/-- `skill_lookup.get(base_skill.lower(), {}).get("ID")`. -/
def skillIdOf (skillLookup : List (String × List (String × JVal))) (baseSkill : String) :
    Option JVal :=
  lookupA ((lookupA skillLookup (pyLower baseSkill)).getD []) "ID"

/-- `map_skill_with_synonyms_verbose` (extract_skills_v3.py, lines 99-123).
The only raising path is the `synonym_to_skill[best[0].lower()]` indexing
(`KeyError`), modelled as `.error`; the orchestrator always calls it with
`all_synonyms` equal to the keys of `synonym_to_skill`, where it cannot
fire. -/
def map_skill_with_synonyms_verbose (extractedSkill : String)
    (synonymToSkill : List (String × String))
    (skillLookup : List (String × List (String × JVal)))
    (allSynonyms : List String) (fuzzyThreshold : ℚ) : Except String MappedSkill :=
  let sNorm := pyLower (pyStrip extractedSkill)
  match lookupA synonymToSkill sNorm with
  | some baseSkill => .ok ⟨some baseSkill, skillIdOf skillLookup baseSkill⟩
  | none =>
    match extractOneTS sNorm allSynonyms with
    | some best =>
      if fuzzyThreshold ≤ best.2 then
        match lookupA synonymToSkill (pyLower best.1) with
        | some baseSkill => .ok ⟨some baseSkill, skillIdOf skillLookup baseSkill⟩
        | none => .error "KeyError"
      else .ok ⟨none, none⟩
    | none => .ok ⟨none, none⟩

/-! ## The generative backend clients

`call_llm` (extract_skills_v3.py, lines 127-169) and `call_local_llm`
(industry_categorisation.py, lines 22-48).  The network is abstracted by a
per-attempt outcome: either the `requests.post` call raises (transport
error / timeout), or it yields a status code and a list of already-decoded
response chunks.  Each executed `time.sleep(1)` is recorded as the
rational `1` in the returned trace of slept seconds. -/

/-- Outcome of one `requests.post` attempt. -/
inductive LlmAttempt where
  | transportErr
  | response (status : Nat) (chunks : List String)

/-- The chunk-accumulation loop shared by both clients: JSON chunks
contribute their `"response"` field (default `""`), undecodable chunks are
appended verbatim, a non-dict JSON chunk or a non-string `"response"`
raises (`AttributeError`/`TypeError`), aborting the attempt. -/
def assembleChunks : List String → Except String String
  | [] => .ok ""
  | ch :: rest => do
    let piece ←
      if ch = "" then pure ""
      else
        match parseJson ch with
        | .ok (.obj kvs) =>
          match lookupA kvs "response" with
          | none => pure ""
          | some (.str s) => pure s
          | some _ => Except.error "TypeError: can only concatenate str"
        | .ok _ => Except.error "AttributeError: chunk is not a dict"
        | .error _ => pure ch
    let tailOut ← assembleChunks rest
    .ok (piece ++ tailOut)

/-- `llm_config.get(key, default)` for an integer-valued option (the
configurations in scope carry integer retry counts). -/
def cfgNat (cfg : List (String × JVal)) (k : String) (d : Nat) : Nat :=
  match lookupA cfg k with
  | some (.num q) => if q.den = 1 ∧ 0 ≤ q.num then q.num.toNat else d
  | _ => d

/-- The retry loop of `call_llm`: `remaining` attempts starting at attempt
index `i`.  On transport error, non-200 status, or a chunk-processing
exception it sleeps 1 second and retries; on a whitespace-only body it
retries without sleeping; it returns the first non-whitespace body. -/
def callLLMGo (env : Nat → LlmAttempt) : Nat → Nat → List ℚ × Option String
  | 0, _ => ([], none)
  | remaining + 1, i =>
    match env i with
    | .transportErr =>
      let r := callLLMGo env remaining (i + 1)
      (1 :: r.1, r.2)
    | .response status chunks =>
      if status ≠ 200 then
        let r := callLLMGo env remaining (i + 1)
        (1 :: r.1, r.2)
      else
        match assembleChunks chunks with
        | .error _ =>
          let r := callLLMGo env remaining (i + 1)
          (1 :: r.1, r.2)
        | .ok fullOutput =>
          if pyStrip fullOutput = "" then callLLMGo env remaining (i + 1)
          else ([], some fullOutput)

/-- `call_llm(prompt, llm_config)`: runs `max_retries` (default 1)
attempts; `none` models the final `RuntimeError`.  Returns the sleep trace
and the outcome. -/
def call_llm (cfg : List (String × JVal)) (env : Nat → LlmAttempt) :
    List ℚ × Option String :=
  callLLMGo env (cfgNat cfg "max_retries" 1) 1

/-- The retry loop of `call_local_llm`: no status check, no empty-body
check — the first attempt whose chunk processing does not raise returns
its (possibly empty) body. -/
def callLocalGo (env : Nat → LlmAttempt) : Nat → Nat → List ℚ × Option String
  | 0, _ => ([], none)
  | remaining + 1, i =>
    match env i with
    | .transportErr =>
      let r := callLocalGo env remaining (i + 1)
      (1 :: r.1, r.2)
    | .response _ chunks =>
      match assembleChunks chunks with
      | .error _ =>
        let r := callLocalGo env remaining (i + 1)
        (1 :: r.1, r.2)
      | .ok fullOutput => ([], some fullOutput)

/-- `call_local_llm(prompt, llm_config)`: `max_retries` (default 2)
attempts, returning `""` (not raising) after exhaustion. -/
def call_local_llm (cfg : List (String × JVal)) (env : Nat → LlmAttempt) :
    List ℚ × String :=
  let r := callLocalGo env (cfgNat cfg "max_retries" 2) 1
  (r.1, r.2.getD "")

/-! ## The extraction stages -/

/-- `prompts.get(primary) or prompts.get("single_prompt", "")` (prompt
files are read as text, so the values are strings). -/
def promptTemplate (prompts : List (String × String)) (primary : String) : String :=
  match lookupA prompts primary with
  | some s => if s = "" then (lookupA prompts "single_prompt").getD "" else s
  | none => (lookupA prompts "single_prompt").getD ""

/-- `data.get(k, d)`; raises (`AttributeError`) on a non-dict. -/
def pyGetJ (v : JVal) (k : String) (d : JVal) : Except String JVal :=
  match v with
  | .obj kvs => .ok ((lookupA kvs k).getD d)
  | _ => .error "AttributeError: .get on non-dict"

/-- Stage-2 output shape (all four keys always present). -/
structure Stage2Result where
  hard_skills : JVal
  soft_skills : JVal
  spoken_languages : JVal
  department : JVal
deriving Repr

/-- The stage-2 total-failure default. -/
def stage2Default : Stage2Result := ⟨.arr [], .arr [], .arr [], .str "null"⟩

/-- `extract_skills` (extract_skills_v3.py, lines 173-193).  `llmResult`
abstracts the `call_llm` outcome: `some text` for a returned body, `none`
for the `RuntimeError` after exhausted retries.  Any exception inside the
`try` block (backend failure, parse failure, non-dict parse) yields the
stage default. -/
def extract_skills (description : String) (llmConfig : List (String × JVal))
    (prompts : List (String × String)) (llmResult : Option String) : Stage2Result :=
  let prompt := pyReplace (promptTemplate prompts "prompt_1") "{job_description}" description
  let attempt : Except String Stage2Result := do
    let _ := (prompt, llmConfig)
    let text ← match llmResult with
      | some t => pure t
      | none => Except.error "RuntimeError: LLM call failed"
    let data ← safe_json_parse text
    let hs ← pyGetJ data "hard_skills" (.arr [])
    let ss ← pyGetJ data "soft_skills" (.arr [])
    let sl ← pyGetJ data "spoken_languages" (.arr [])
    let dep ← pyGetJ data "department" (.str "null")
    pure ⟨hs, ss, sl, dep⟩
  match attempt with
  | .ok v => v
  | .error _ => stage2Default

/-- Stage-3 output shape. -/
structure Stage3Result where
  skill_levels : JVal
  spoken_languages_levels : JVal
  contact_details : JVal
  language_description : JVal
deriving Repr

/-- The contact-details default. -/
def defaultContacts : JVal :=
  .obj [("name", .str "not provided"), ("email", .str "not provided"),
        ("phone_number", .str "not provided")]

/-- The stage-3 total-failure (exception) default: every skill and
language mapped to `"unknown"`. -/
def stage3Default (hardSkills spokenLanguages : List String) : Stage3Result :=
  ⟨.obj (dictOf (hardSkills.map (fun s => (s, JVal.str "unknown")))),
   .obj (dictOf (spokenLanguages.map (fun s => (s, JVal.str "unknown")))),
   defaultContacts, .str "not detected"⟩

/-- `estimate_skill_levels` (extract_skills_v3.py, lines 197-234). -/
def estimate_skill_levels (description : String)
    (hardSkills spokenLanguages : List String) (llmConfig : List (String × JVal))
    (prompts : List (String × String)) (llmResult : Option String) : Stage3Result :=
  let prompt := pyReplace (pyReplace (pyReplace (promptTemplate prompts "prompt_2")
    "{job_description}" description)
    "{hard_skills}" (joinSep ", " hardSkills))
    "{spoken_languages}" (joinSep ", " spokenLanguages)
  let attempt : Except String Stage3Result := do
    let _ := (prompt, llmConfig)
    let text ← match llmResult with
      | some t => pure t
      | none => Except.error "RuntimeError: LLM call failed"
    let data ← safe_json_parse text
    let sl ← pyGetJ data "hard_skill_levels" (.obj [])
    let sll ← pyGetJ data "spoken_languages_levels" (.obj [])
    let cd ← pyGetJ data "contact_details" defaultContacts
    let ld ← pyGetJ data "language_description" (.str "not detected")
    pure ⟨sl, sll, cd, ld⟩
  match attempt with
  | .ok v => v
  | .error _ => stage3Default hardSkills spokenLanguages

/-! ## Industry classification (`industry_categorisation.py`) -/

/-- The `{"main_industry": "unknown", "subindustry": "unknown"}` default. -/
def industryDefault2 : List (String × JVal) :=
  [("main_industry", .str "unknown"), ("subindustry", .str "unknown")]

/-- `safe_json_parse_industry` (industry_categorisation.py, lines 52-68):
extract the `{...}` span, close it if needed, strict-parse, retry once
after trailing-comma repair, default on failure.  A successful parse is
always a dict because the span starts with `{`. -/
def safe_json_parse_industry (text : String) : List (String × JVal) :=
  match braceSpan text.data with
  | none => industryDefault2
  | some span =>
    let jsonStr := stripL span
    let jsonStr := if jsonStr.getLast? = some '}' then jsonStr else jsonStr ++ ['}']
    match parseJson (String.mk jsonStr) with
    | .ok (.obj kvs) => kvs
    | _ =>
      let repaired := commaSubF jsonStr.length jsonStr
      match parseJson (String.mk repaired) with
      | .ok (.obj kvs) => kvs
      | _ => industryDefault2

/-- Scan one main-industry's subindustries for a substring hit. -/
def subScan (s : String) : List String → Option String
  | [] => none
  | sub :: rest => if pyIn (pyLower sub) (pyLower s) then some sub else subScan s rest

/-- The local keyword short-circuit of `map_industry`: for each
`(main, subs)` entry in order, first the main name, then each subindustry,
matched case-insensitively as a substring of the input. -/
def keywordScan : List (String × List String) → String → Option (List (String × JVal))
  | [], _ => none
  | (mainI, subs) :: rest, s =>
    if pyIn (pyLower mainI) (pyLower s) then
      some [("main_industry", .str mainI), ("subindustry", .str "unknown")]
    else
      match subScan s subs with
      | some sub => some [("main_industry", .str mainI), ("subindustry", .str sub)]
      | none => keywordScan rest s

/-- `map_industry` (industry_categorisation.py, lines 71-106).  `llmOut`
abstracts the `call_local_llm` result (`""` after exhausted retries). -/
def map_industry (industryMapping : List (String × List String))
    (companyIndustryStr : String) (llmOut : String) : List (String × JVal) :=
  if pyStrip companyIndustryStr = "" then industryDefault2
  else
    match keywordScan industryMapping companyIndustryStr with
    | some r => r
    | none => safe_json_parse_industry llmOut

/-! ## The orchestrator (`job_extractor.py`) -/

/-- Python iteration over a value (`for s in v`): lists yield elements,
strings yield one-character strings, dicts yield keys; other values raise
`TypeError`. -/
def pyIterElems (v : JVal) : Except String (List JVal) :=
  match v with
  | .arr xs => .ok xs
  | .str s => .ok (s.data.map (fun c => JVal.str (String.mk [c])))
  | .obj kvs => .ok (kvs.map (fun kv => JVal.str kv.1))
  | _ => .error "TypeError: not iterable"

/-- Coerce to a string or raise (models calling a `str` method on the
value). -/
def pyAsStr (v : JVal) : Except String String :=
  match v with
  | .str s => .ok s
  | _ => .error "AttributeError: expected str"

/-- One step of the `[s.strip() for s in ... if s.strip()]` comprehension:
guard on the truthiness of `s.strip()`, keep the stripped value. -/
def stripFoldFn (e : JVal) (acc : List String) : Except String (List String) := do
  let s ← pyAsStr e
  if pyStrip s = "" then pure acc else pure (pyStrip s :: acc)

/-- `[s.strip() for s in v if s.strip()]` (job_extractor.py, lines 60-61):
strip every element, drop the ones that strip to empty; raises if `v` is
not iterable or an element is not a string. -/
def cleanSkillList (v : JVal) : Except String (List String) := do
  let elems ← pyIterElems v
  elems.foldrM stripFoldFn []

/-- `v.items()`; raises on a non-dict. -/
def pyItems (v : JVal) : Except String (List (String × JVal)) :=
  match v with
  | .obj kvs => .ok kvs
  | _ => .error "AttributeError: .items on non-dict"

/-- `o or d` where `o` is the result of `dict.get(k)` (a missing key gives
`None`, which is falsy). -/
def orDefault (o : Option JVal) (d : JVal) : JVal :=
  match o with
  | some v => if pyTruthy v then v else d
  | none => d

/-- `industry_mapping.get("main_industry") or "unknown"`, rendered. -/
def industryMainStr (m : List (String × JVal)) : String :=
  pyStr (orDefault (lookupA m "main_industry") (.str "unknown"))

/-- `industry_mapping.get("subindustry") or "unknown"`, rendered. -/
def industrySubStr (m : List (String × JVal)) : String :=
  pyStr (orDefault (lookupA m "subindustry") (.str "unknown"))

/-- `f"{main_ind}: {sub_ind}"` (job_extractor.py, lines 91-93). -/
def industryStr (m : List (String × JVal)) : String :=
  industryMainStr m ++ ": " ++ industrySubStr m

/-- The passthrough columns preserved from the original record
(job_extractor.py, lines 44-48). -/
def originalColumns : List String :=
  ["id", "title", "job_function", "job_level", "job_type", "is_remote", "location",
   "date_posted", "job_url", "site", "company", "company_url", "company_industry",
   "description"]

/-- `JobExtractor.__init__`: lower-cased taxonomy lookup. -/
def buildSkillToInfo (taxonomy : List (String × List (String × JVal))) :
    List (String × List (String × JVal)) :=
  dictOf (taxonomy.map (fun bi => (pyLower bi.1, bi.2)))

/-- `JobExtractor.__init__`: lower-cased synonym lists. -/
def buildSkillSynonyms (synonyms : List (String × List String)) :
    List (String × List String) :=
  dictOf (synonyms.map (fun bs => (pyLower bs.1, bs.2.map pyLower)))

/-- `JobExtractor.__init__`: flattened synonym → base-skill dict. -/
def buildSynonymToSkill (skillSynonyms : List (String × List String)) :
    List (String × String) :=
  dictOf (skillSynonyms.foldr (fun bs acc => bs.2.map (fun syn => (syn, bs.1)) ++ acc) [])

/-- One step of the skill-levels-to-ids loop (job_extractor.py, lines
77-83): resolve the skill, key by `str(ID)` when the id is truthy, else by
the raw skill name. -/
def mapSkillFold (synonymToSkill : List (String × String))
    (skillLookup : List (String × List (String × JVal)))
    (allSynonyms : List String) (fuzzyThreshold : ℚ)
    (acc : List (String × JVal)) (kv : String × JVal) :
    Except String (List (String × JVal)) := do
  let mapped ← map_skill_with_synonyms_verbose kv.1 synonymToSkill skillLookup
    allSynonyms fuzzyThreshold
  match mapped.id with
  | some idv =>
    if pyTruthy idv then pure (dictSet acc (pyStr idv) kv.2)
    else pure (dictSet acc kv.1 kv.2)
  | none => pure (dictSet acc kv.1 kv.2)

/-- `JobExtractor.process_job` (job_extractor.py, lines 50-106).  The
taxonomy/synonym inputs, fuzzy threshold, industry mapping, LLM config and
prompts are the extractor's construction data; `llm1`/`llm2` abstract the
two `call_llm` outcomes and `llm3` the `call_local_llm` outcome used by
`map_industry`.  The `Except` layer carries any uncaught Python
exception. -/
def process_job (taxonomy : List (String × List (String × JVal)))
    (synonyms : List (String × List String)) (fuzzyThreshold : ℚ)
    (industryMapping : List (String × List String))
    (llmConfig : List (String × JVal)) (prompts : List (String × String))
    (jobRecord : List (String × JVal)) (llm1 llm2 : Option String) (llm3 : String) :
    Except String (List (String × JVal)) := do
  let skillToInfo := buildSkillToInfo taxonomy
  let synonymToSkill := buildSynonymToSkill (buildSkillSynonyms synonyms)
  let allSynonyms := synonymToSkill.map Prod.fst
  -- Step 0: normalize the description
  let rawDesc ← pyAsStr ((lookupA jobRecord "description").getD (.str ""))
  let description := clean_job_description rawDesc
  -- Step 1: extract skills & languages
  let skillsData := extract_skills description llmConfig prompts llm1
  let hardSkills ← cleanSkillList skillsData.hard_skills
  let spokenLanguages ← cleanSkillList skillsData.spoken_languages
  -- Step 2: estimate levels & contacts
  let extraData := estimate_skill_levels description hardSkills spokenLanguages
    llmConfig prompts llm2
  -- Step 3: map hard skills to taxonomy IDs
  let lvlItems ← pyItems extraData.skill_levels
  let skillLevelsWithIds ←
    lvlItems.foldlM (mapSkillFold synonymToSkill skillToInfo allSynonyms fuzzyThreshold) []
  -- Step 4: industry mapping
  let companyIndustry ← pyAsStr ((lookupA jobRecord "company_industry").getD (.str ""))
  let industryMap := map_industry industryMapping companyIndustry llm3
  let companyIndustryStr := industryStr industryMap
  -- Step 5: merge original columns with enriched columns
  let finalRecord := originalColumns.map (fun c => (c, (lookupA jobRecord c).getD .null))
  let finalRecord := dictSet finalRecord "hard_skills" (.obj skillLevelsWithIds)
  let finalRecord := dictSet finalRecord "spoken_languages" extraData.spoken_languages_levels
  let finalRecord := dictSet finalRecord "contact_details" extraData.contact_details
  let finalRecord := dictSet finalRecord "language_description" extraData.language_description
  let finalRecord := dictSet finalRecord "company_industry" (.str companyIndustryStr)
  let finalRecord := dictSet finalRecord "description" (.str description)
  pure finalRecord

/-! ## Concrete scenario data used by the counterexamples/witnesses -/

/-- A backend environment whose first attempt fails in transport and whose
second attempt answers `200` with body `"hello"`. -/
def c3Env : Nat → LlmAttempt := fun i =>
  if i = 1 then .transportErr else .response 200 ["\x7b\"response\": \"hello\"\x7d"]

/-- A backend environment in which every attempt fails in transport. -/
def c3EnvFail : Nat → LlmAttempt := fun _ => .transportErr

/-- A client configuration carrying the backoff options the spec names
(`base_delay = 5`, `max_delay = 60`, `jitter_bound = 0`, two retries). -/
def c3Cfg : List (String × JVal) :=
  [("model_name", .str "m"), ("max_retries", .num 2), ("base_delay", .num 5),
   ("max_delay", .num 60), ("jitter_bound", .num 0)]

/-! ## Local shape invariants of cleaned text -/

/-- No whitespace character other than a line feed immediately precedes a
line feed. -/
def noWsNl (l : List Char) : Prop := ∀ w, wsNN w = true → ¬ ([w, '\n'] <:+: l)

/-- No whitespace character other than a line feed immediately follows a
line feed. -/
def noNlWs (l : List Char) : Prop := ∀ w, wsNN w = true → ¬ (['\n', w] <:+: l)

/-- No three consecutive line feeds. -/
def noTriNl (l : List Char) : Prop := ¬ (['\n', '\n', '\n'] <:+: l)

/-- No two consecutive spaces. -/
def noDblSp (l : List Char) : Prop := ¬ ([' ', ' '] <:+: l)

/-- Every line-boundary character is a line feed. -/
def onlyNlBound (l : List Char) : Prop := ∀ c ∈ l, isLineBoundChar c = true → c = '\n'

/-- The text nowhere contains a line feed, a whole line of non-line-feed
whitespace, a line feed, another such line, and a line feed: the shape that
would make the blank-line collapse of a second pass differ. -/
def noBadBlock (l : List Char) : Prop :=
  ∀ u w1 w2 v : List Char, (∀ c ∈ w1, wsNN c = true) → (∀ c ∈ w2, wsNN c = true) →
    l ≠ u ++ '\n' :: (w1 ++ '\n' :: (w2 ++ '\n' :: v))

/-! # Theorems -/

/-! ## Claim C4: stage-2 total-failure default -/

/-- **C4.** For every input on which the stage-2 generative call fails
totally — the backend call exhausts retries (`llmResult = none`), or the
parser raises, or the parser yields an empty mapping — `extract_skills`
returns exactly the stage default
`{hard_skills: [], soft_skills: [], spoken_languages: [], department: "null"}`. -/
theorem C4_extract_skills_default (description : String)
    (llmConfig : List (String × JVal)) (prompts : List (String × String))
    (llmResult : Option String)
    (h : llmResult = none ∨
      ∃ t, llmResult = some t ∧
        (safe_json_parse t = .ok (.obj []) ∨ ∃ e, safe_json_parse t = .error e)) :
    extract_skills description llmConfig prompts llmResult = stage2Default := by
  rcases h with h | ⟨t, ht, hp | ⟨e, hp⟩⟩
  · subst h; rfl
  · subst ht
    simp [extract_skills, hp, pyGetJ, lookupA, stage2Default, Bind.bind, Except.bind,
      Pure.pure, Except.pure, Functor.map, Except.map]
  · subst ht
    simp [extract_skills, hp, pyGetJ, lookupA, stage2Default, Bind.bind, Except.bind,
      Pure.pure, Except.pure, Functor.map, Except.map]

/-- Witness for C4 at two concrete total failures: exhausted retries and a
parse of `"{}"`. -/
theorem C4_extract_skills_default_witness :
    extract_skills "d" [] [] none = stage2Default
    ∧ extract_skills "d" [] [] (some "{}") = stage2Default :=
  ⟨C4_extract_skills_default "d" [] [] none (Or.inl rfl),
   C4_extract_skills_default "d" [] [] (some "{}")
     (Or.inr ⟨"{}", rfl, Or.inl (by rfl)⟩)⟩

/-! ## Claim C5: stage-3 failure defaults -/

/-- **C5 counterexample.** The claim states that an empty parsed mapping
must be treated identically to backend exhaustion, i.e. `skill_levels`
must map every given hard skill to `"unknown"`.  With hard skills
`["SQL"]` and a backend answer `"{}"` (which parses to the empty mapping)
the code instead returns an *empty* `skill_levels`, with no entry for
`"SQL"` at all. -/
theorem C5_counterexample :
    (estimate_skill_levels "d" ["SQL"] [] [] [] (some "{}")).skill_levels = JVal.obj []
    ∧ estimate_skill_levels "d" ["SQL"] [] [] [] (some "{}") ≠ stage3Default ["SQL"] [] := by
  refine ⟨rfl, fun h => ?_⟩
  have h2 := congrArg Stage3Result.skill_levels h
  rw [show (estimate_skill_levels "d" ["SQL"] [] [] [] (some "{}")).skill_levels
      = JVal.obj [] from rfl] at h2
  simp [stage3Default, dictOf, dictSet] at h2

/-- **C5 (amended).** On backend exhaustion `estimate_skill_levels`
returns the full default — every hard skill and spoken language mapped to
`"unknown"`, `contact_details` all `"not provided"`, `language_description`
`"not detected"`.  When the backend answers but the parser yields an empty
mapping, the call instead returns *empty* `skill_levels` and
`spoken_languages_levels` (the key sets are not completed), while
`contact_details` and `language_description` still receive the same
defaults. -/
theorem C5_estimate_defaults (description : String)
    (hardSkills spokenLanguages : List String) (llmConfig : List (String × JVal))
    (prompts : List (String × String)) (llmResult : Option String) :
    (llmResult = none →
      estimate_skill_levels description hardSkills spokenLanguages llmConfig prompts
        llmResult = stage3Default hardSkills spokenLanguages)
    ∧ (∀ t, llmResult = some t → safe_json_parse t = .ok (.obj []) →
      estimate_skill_levels description hardSkills spokenLanguages llmConfig prompts
        llmResult =
        ⟨.obj [], .obj [], defaultContacts, .str "not detected"⟩) := by
  constructor
  · intro h
    subst h
    rfl
  · intro t ht hp
    subst ht
    simp [estimate_skill_levels, hp, pyGetJ, lookupA, Bind.bind, Except.bind,
      Pure.pure, Except.pure, Functor.map, Except.map]

/-- Witness for C5 at both failure modes. -/
theorem C5_estimate_defaults_witness :
    estimate_skill_levels "d" ["SQL"] ["en"] [] [] none = stage3Default ["SQL"] ["en"]
    ∧ estimate_skill_levels "d" ["SQL"] ["en"] [] [] (some "{}") =
      ⟨.obj [], .obj [], defaultContacts, .str "not detected"⟩ :=
  ⟨(C5_estimate_defaults "d" ["SQL"] ["en"] [] [] none).1 rfl,
   (C5_estimate_defaults "d" ["SQL"] ["en"] [] [] (some "{}")).2 "{}" rfl (by rfl)⟩

/-! ## Claim C6: exact-match precedence in the taxonomy resolver -/

/-- **C6.** Whenever the trimmed, lowercased mention is a key of the
synonym index, the resolver returns that synonym's canonical skill
together with the taxonomy id looked up for it, and the result does not
depend on the fuzzy choice list or on the threshold at all (fuzzy matching
is never consulted). -/
theorem C6_exact_match_precedence (extractedSkill baseSkill : String)
    (synonymToSkill : List (String × String))
    (skillLookup : List (String × List (String × JVal)))
    (allSynonyms allSynonyms' : List String) (thr thr' : ℚ)
    (h : lookupA synonymToSkill (pyLower (pyStrip extractedSkill)) = some baseSkill) :
    map_skill_with_synonyms_verbose extractedSkill synonymToSkill skillLookup
      allSynonyms thr = .ok ⟨some baseSkill, skillIdOf skillLookup baseSkill⟩
    ∧ map_skill_with_synonyms_verbose extractedSkill synonymToSkill skillLookup
        allSynonyms thr =
      map_skill_with_synonyms_verbose extractedSkill synonymToSkill skillLookup
        allSynonyms' thr' := by
  constructor <;> simp [map_skill_with_synonyms_verbose, h]

/-- Witness for C6: `"Python "` resolves by exact match against the
synonym `"python"`; the choice list and threshold are irrelevant. -/
theorem C6_exact_match_precedence_witness :
    map_skill_with_synonyms_verbose "Python " [("python", "Python")]
      [("python", [("ID", JVal.str "S1")])] ["python"] 85 =
      .ok ⟨some "Python", skillIdOf [("python", [("ID", JVal.str "S1")])] "Python"⟩
    ∧ map_skill_with_synonyms_verbose "Python " [("python", "Python")]
        [("python", [("ID", JVal.str "S1")])] ["python"] 85 =
      map_skill_with_synonyms_verbose "Python " [("python", "Python")]
        [("python", [("ID", JVal.str "S1")])] [] 0 :=
  C6_exact_match_precedence "Python " "Python" [("python", "Python")]
    [("python", [("ID", JVal.str "S1")])] ["python"] [] 85 0 (by rfl)

/-! ## Claim C8: synonym-to-taxonomy invariant violations -/

/-- **C8 counterexample.** The claim states that a mention matching a
synonym whose canonical skill is missing from the taxonomy lookup resolves
to `{mapped_to: None, ID: None}`.  With synonym map `{"py": "python"}` and
an empty taxonomy lookup, the mention `"py"` instead resolves to
`{mapped_to: "python", ID: None}` — the canonical name is kept. -/
theorem C8_counterexample :
    map_skill_with_synonyms_verbose "py" [("py", "python")] [] ["py"] 85 =
      .ok ⟨some "python", none⟩
    ∧ map_skill_with_synonyms_verbose "py" [("py", "python")] [] ["py"] 85 ≠
      .ok ⟨none, none⟩ := by
  refine ⟨rfl, fun h => ?_⟩
  rw [show map_skill_with_synonyms_verbose "py" [("py", "python")] [] ["py"] 85
      = .ok ⟨some "python", none⟩ from rfl] at h
  simp at h

/-- **C8 (amended).** For every mention that matches — exactly or fuzzily —
a synonym whose canonical skill name is not a key of the taxonomy lookup,
the resolver returns `ID = None` but keeps `mapped_to` equal to the
canonical skill (it is the orchestrator that then falls back to keying by
the raw mention). -/
theorem C8_missing_taxonomy_entry (extractedSkill baseSkill : String)
    (synonymToSkill : List (String × String))
    (skillLookup : List (String × List (String × JVal)))
    (allSynonyms : List String) (thr : ℚ) :
    (lookupA synonymToSkill (pyLower (pyStrip extractedSkill)) = some baseSkill →
      lookupA skillLookup (pyLower baseSkill) = none →
      map_skill_with_synonyms_verbose extractedSkill synonymToSkill skillLookup
        allSynonyms thr = .ok ⟨some baseSkill, none⟩)
    ∧ (∀ best score,
      lookupA synonymToSkill (pyLower (pyStrip extractedSkill)) = none →
      extractOneTS (pyLower (pyStrip extractedSkill)) allSynonyms = some (best, score) →
      thr ≤ score →
      lookupA synonymToSkill (pyLower best) = some baseSkill →
      lookupA skillLookup (pyLower baseSkill) = none →
      map_skill_with_synonyms_verbose extractedSkill synonymToSkill skillLookup
        allSynonyms thr = .ok ⟨some baseSkill, none⟩) := by
  constructor
  · intro h hm
    simp [map_skill_with_synonyms_verbose, h, skillIdOf, hm, lookupA]
  · intro best score h hb hthr hbase hm
    simp [map_skill_with_synonyms_verbose, h, hb, hthr, hbase, skillIdOf, hm, lookupA]

/-! ## Claim C1: totality of `safe_json_parse` -/

/-- The line-comment stripper only deletes characters. -/
theorem lcSubF_mem : ∀ fuel prev l, ∀ c ∈ lcSubF fuel prev l, c ∈ l := by
  intro fuel prev l
  induction fuel, prev, l using lcSubF.induct with
  | case1 t x => intro c h; rw [show lcSubF t x [] = [] from by cases t <;> rfl] at h; simp at h
  | case2 x l hne =>
    intro c h
    rwa [lcSubF.eq_2 x l hne] at h
  | case3 fuel prev w r hcond tk ih =>
    intro c h
    rw [lcSubF.eq_3, if_pos hcond] at h
    exact List.mem_cons_of_mem _ (List.mem_cons_of_mem _
      (List.mem_cons_of_mem _ (List.mem_of_mem_drop (ih c h))))
  | case4 fuel prev w r hcond ih =>
    intro c h
    rw [lcSubF.eq_3, if_neg hcond] at h
    rcases List.mem_cons.mp h with rfl | h2
    · exact List.mem_cons_self _ _
    · exact List.mem_cons_of_mem _ (ih c h2)
  | case5 fuel x c t hne ih =>
    intro d h
    rw [lcSubF.eq_4 x fuel c t hne] at h
    rcases List.mem_cons.mp h with rfl | h2
    · exact List.mem_cons_self _ _
    · exact List.mem_cons_of_mem _ (ih d h2)

/-- Unfolding of `parenSubF` on a cons cell (definitional). -/
theorem parenSubF_succ (fuel : Nat) (c : Char) (t : List Char) :
    parenSubF (fuel + 1) (c :: t) =
      match alt1Len (c :: t) with
      | some k => parenSubF fuel ((c :: t).drop k)
      | none =>
        match alt2Len (c :: t) with
        | some k => parenSubF fuel ((c :: t).drop k)
        | none => c :: parenSubF fuel t := rfl

/-- The parenthetical stripper only deletes characters. -/
theorem parenSubF_mem : ∀ fuel l, ∀ c ∈ parenSubF fuel l, c ∈ l := by
  intro fuel
  induction fuel with
  | zero =>
    intro l c h
    cases l with
    | nil => rw [show parenSubF 0 [] = [] from rfl] at h; exact absurd h (List.not_mem_nil c)
    | cons a t => rw [show parenSubF 0 (a :: t) = a :: t from rfl] at h; exact h
  | succ n ih =>
    intro l c h
    cases l with
    | nil =>
      rw [show parenSubF (n + 1) [] = [] from rfl] at h
      exact absurd h (List.not_mem_nil c)
    | cons a t =>
      rw [parenSubF_succ] at h
      cases h1 : alt1Len (a :: t) with
      | some k =>
        rw [h1] at h
        exact List.mem_of_mem_drop (ih _ c h)
      | none =>
        rw [h1] at h
        cases h2 : alt2Len (a :: t) with
        | some k =>
          rw [h2] at h
          exact List.mem_of_mem_drop (ih _ c h)
        | none =>
          rw [h2] at h
          rcases List.mem_cons.mp h with rfl | h3
          · exact List.mem_cons_self _ _
          · exact List.mem_cons_of_mem _ (ih _ c h3)

/-- The angle-bracket stripper only deletes characters. -/
theorem angleSubF_mem : ∀ fuel l, ∀ c ∈ angleSubF fuel l, c ∈ l := by
  intro fuel l
  induction fuel, l using angleSubF.induct with
  | case1 t => intro c h; rw [show angleSubF t [] = [] from by cases t <;> rfl] at h; simp at h
  | case2 l hne =>
    intro c h
    rwa [angleSubF.eq_2 l hne] at h
  | case3 fuel t k hlt ih =>
    intro d h
    rw [angleSubF.eq_3] at h
    simp only [if_pos rfl, hlt] at h
    exact List.mem_cons_of_mem _ (List.mem_of_mem_drop (ih d h))
  | case4 fuel t hlt ih =>
    intro d h
    rw [angleSubF.eq_3] at h
    simp only [if_pos rfl, hlt] at h
    rcases List.mem_cons.mp h with rfl | h2
    · exact List.mem_cons_self _ _
    · exact List.mem_cons_of_mem _ (ih d h2)
  | case5 fuel c t hne ih =>
    intro d h
    rw [angleSubF.eq_3, if_neg hne] at h
    rcases List.mem_cons.mp h with rfl | h2
    · exact List.mem_cons_self _ _
    · exact List.mem_cons_of_mem _ (ih d h2)

/-- `braceSpan` finds nothing in a text without `{`. -/
theorem braceSpan_eq_none (l : List Char) (h : '{' ∉ l) : braceSpan l = none := by
  have hf : l.findIdx? (fun c => c = '{') = none := by
    rw [List.findIdx?_eq_none_iff]
    intro x hx
    have hne : ¬ x = '{' := fun e => h (e ▸ hx)
    simp [hne]
  simp [braceSpan, hf]

/-- **C1 counterexample.**  The claim states that `safe_json_parse` never
raises and returns a mapping (empty on total failure) for every string.
On the empty string the function instead raises
`ValueError("No JSON object found in LLM output")`. -/
theorem C1_counterexample :
    safe_json_parse "" = .error "No JSON object found in LLM output" := rfl

/-- **C1 (amended).**  `safe_json_parse` returns a mapping when
extraction or repair succeeds, but on total failure it raises rather
than returning an empty mapping; in particular, on any input containing
no `{` at all (the empty string, prose, truncated non-JSON text) it
raises `ValueError("No JSON object found in LLM output")`.  The
never-raises/empty-default contract holds only at the stage boundary,
where `extract_skills`/`estimate_skill_levels` catch the exception. -/
theorem C1_raises_without_brace (t : String) (h : '{' ∉ t.data) :
    safe_json_parse t = .error "No JSON object found in LLM output" := by
  have h1 : '{' ∉ lcSubF t.data.length none t.data :=
    fun hc => h (lcSubF_mem _ _ _ _ hc)
  have h2 : '{' ∉ parenSubF (lcSubF t.data.length none t.data).length
      (lcSubF t.data.length none t.data) :=
    fun hc => h1 (parenSubF_mem _ _ _ hc)
  set t3 := angleSubF (parenSubF (lcSubF t.data.length none t.data).length
      (lcSubF t.data.length none t.data)).length
    (parenSubF (lcSubF t.data.length none t.data).length
      (lcSubF t.data.length none t.data)) with ht3
  have h3 : '{' ∉ t3 := fun hc => h2 (angleSubF_mem _ _ _ hc)
  have hbs : braceSpan t3 = none := braceSpan_eq_none _ h3
  have hfi : t3.findIdx? (fun c => c = '{') = none := by
    rw [List.findIdx?_eq_none_iff]
    intro x hx
    have hne : ¬ x = '{' := fun e => h3 (e ▸ hx)
    simp [hne]
  rw [safe_json_parse]
  rw [← ht3, hbs, hfi]

/-- Witness for C1 (amended) at the brace-free input `"hello"`. -/
theorem C1_raises_without_brace_witness :
    safe_json_parse "hello" = .error "No JSON object found in LLM output" :=
  C1_raises_without_brace "hello" (by decide)

/-! ## Dictionary and resolver infrastructure for the orchestrator claims -/

/-- `Char.ofNat` inverts `Char.toNat` on valid code points. -/
theorem toNat_ofNat_valid (n : Nat) (h : n.isValidChar) : (Char.ofNat n).toNat = n := by
  have hlt : n < 1114112 := by
    rcases h with h | ⟨h1, h2⟩ <;> omega
  simp only [Char.ofNat, h, dif_pos]
  simp only [Char.ofNatAux, Char.toNat]
  simp [UInt32.toNat, BitVec.toNat_ofNatLt]

/-- `Char.toLower` is idempotent. -/
theorem toLower_idem (c : Char) : c.toLower.toLower = c.toLower := by
  unfold Char.toLower
  by_cases h : 65 ≤ c.toNat ∧ c.toNat ≤ 90
  · rw [if_pos h]
    have hv : (c.toNat + 32).isValidChar := Or.inl (by omega)
    rw [toNat_ofNat_valid _ hv]
    rw [if_neg (by omega)]
  · rw [if_neg h, if_neg h]

/-- `pyLower` is idempotent. -/
theorem pyLower_idem (s : String) : pyLower (pyLower s) = pyLower s := by
  simp only [pyLower, List.map_map]
  congr 1
  exact List.map_congr_left (fun c _ => toLower_idem c)

/-- Members of `dictSet d k v` are `(k, v)` or members of `d`. -/
theorem dictSet_mem {α : Type} (d : List (String × α)) (k : String) (v : α) :
    ∀ p ∈ dictSet d k v, p = (k, v) ∨ p ∈ d := by
  induction d with
  | nil => intro p hp; simp [dictSet] at hp; exact Or.inl hp
  | cons q t ih =>
    intro p hp
    rw [dictSet] at hp
    by_cases hk : q.1 = k
    · rw [if_pos hk] at hp
      rcases List.mem_cons.mp hp with rfl | hp2
      · exact Or.inl (by rw [hk])
      · exact Or.inr (List.mem_cons_of_mem _ hp2)
    · rw [if_neg hk] at hp
      rcases List.mem_cons.mp hp with rfl | hp2
      · exact Or.inr (List.mem_cons_self _ _)
      · rcases ih p hp2 with h | h
        · exact Or.inl h
        · exact Or.inr (List.mem_cons_of_mem _ h)

/-- Members of `dictOf ps` come from `ps`. -/
theorem dictOf_mem {α : Type} (ps : List (String × α)) :
    ∀ p ∈ dictOf ps, p ∈ ps := by
  have gen : ∀ (l : List (String × α)) (acc : List (String × α)),
      ∀ p ∈ l.foldl (fun d kv => dictSet d kv.1 kv.2) acc, p ∈ acc ∨ p ∈ l := by
    intro l
    induction l with
    | nil => intro acc p hp; exact Or.inl hp
    | cons q t ih =>
      intro acc p hp
      rw [List.foldl_cons] at hp
      rcases ih _ p hp with h | h
      · rcases dictSet_mem acc q.1 q.2 p h with h2 | h2
        · exact Or.inr (by simp [h2])
        · exact Or.inl h2
      · exact Or.inr (List.mem_cons_of_mem _ h)
  intro p hp
  rcases gen ps [] p hp with h | h
  · simp at h
  · exact h

/-- A key present among the keys has a `some` lookup. -/
theorem lookupA_isSome_of_mem_keys {α : Type} (d : List (String × α)) (k : String)
    (h : k ∈ d.map Prod.fst) : (lookupA d k).isSome := by
  induction d with
  | nil => simp at h
  | cons q t ih =>
    rw [lookupA]
    by_cases hk : q.1 = k
    · simp [hk]
    · rw [if_neg hk]
      rw [List.map_cons] at h
      rcases List.mem_cons.mp h with h2 | h2
      · exact absurd h2.symm hk
      · exact ih h2

/-- `lookupA` after `dictSet` at the set key. -/
theorem lookupA_dictSet_self {α : Type} (d : List (String × α)) (k : String) (v : α) :
    lookupA (dictSet d k v) k = some v := by
  induction d with
  | nil => simp [dictSet, lookupA]
  | cons q t ih =>
    rw [dictSet]
    by_cases hk : q.1 = k
    · rw [if_pos hk, lookupA, if_pos hk]
    · rw [if_neg hk, lookupA, if_neg hk]
      exact ih

/-- `lookupA` after `dictSet` at a different key. -/
theorem lookupA_dictSet_ne {α : Type} (d : List (String × α)) (k k' : String) (v : α)
    (h : k ≠ k') : lookupA (dictSet d k v) k' = lookupA d k' := by
  induction d with
  | nil => simp [dictSet, lookupA, h]
  | cons q t ih =>
    rw [dictSet]
    by_cases hk : q.1 = k
    · have hq : q.1 ≠ k' := by rw [hk]; exact h
      rw [if_pos hk, lookupA, lookupA, if_neg hq, if_neg hq]
    · rw [if_neg hk, lookupA, lookupA]
      by_cases hk' : q.1 = k'
      · rw [if_pos hk', if_pos hk']
      · rw [if_neg hk', if_neg hk']
        exact ih

/-- Every key of the constructed synonym dictionary is already
lower-cased. -/
theorem buildSynonymToSkill_keys_lower (synonyms : List (String × List String)) :
    ∀ k ∈ (buildSynonymToSkill (buildSkillSynonyms synonyms)).map Prod.fst,
      pyLower k = k := by
  intro k hk
  rcases List.mem_map.mp hk with ⟨p, hp, rfl⟩
  have hp2 := dictOf_mem _ p hp
  -- p comes from the flattened foldr, whose first components are
  -- elements of some lower-cased synonym list
  have flat : ∀ (X : List (String × List String)) (p : String × String),
      p ∈ X.foldr (fun bs acc => bs.2.map (fun syn => (syn, bs.1)) ++ acc) [] →
      ∃ bs ∈ X, p.1 ∈ bs.2 := by
    intro X
    induction X with
    | nil => intro p hp; simp at hp
    | cons b t ih =>
      intro p hp
      rw [List.foldr_cons] at hp
      rcases List.mem_append.mp hp with h | h
      · rcases List.mem_map.mp h with ⟨syn, hsyn, rfl⟩
        exact ⟨b, List.mem_cons_self _ _, hsyn⟩
      · rcases ih p h with ⟨bs, hbs, hmem⟩
        exact ⟨bs, List.mem_cons_of_mem _ hbs, hmem⟩
  rcases flat _ p hp2 with ⟨bs, hbs, hmem⟩
  have hbs2 := dictOf_mem _ bs hbs
  rcases List.mem_map.mp hbs2 with ⟨orig, _, rfl⟩
  rcases List.mem_map.mp (by simpa using hmem) with ⟨x, _, hx⟩
  rw [← hx]
  exact pyLower_idem x

/-- `extractOneTS` returns one of the choices. -/
theorem extractOneTS_mem (q : String) (choices : List String) (b : String) (s : ℚ)
    (h : extractOneTS q choices = some (b, s)) : b ∈ choices := by
  have gen : ∀ (l : List String) (acc : Option (String × ℚ)) (b : String) (s : ℚ),
      l.foldl (fun acc c =>
        match acc with
        | none => some (c, tokenSortScore q c)
        | some (b0, bs0) =>
          if tokenSortScore q c > bs0 then some (c, tokenSortScore q c)
          else some (b0, bs0)) acc = some (b, s) →
      acc = some (b, s) ∨ b ∈ l := by
    intro l
    induction l with
    | nil => intro acc b s h; exact Or.inl h
    | cons c t ih =>
      intro acc b s h
      rw [List.foldl_cons] at h
      rcases ih _ b s h with h2 | h2
      · rcases acc with _ | ⟨b0, bs0⟩
        · simp only [Option.some.injEq, Prod.mk.injEq] at h2
          exact Or.inr (by simp [h2.1])
        · dsimp only at h2
          by_cases hgt : tokenSortScore q c > bs0
          · rw [if_pos hgt] at h2
            simp only [Option.some.injEq, Prod.mk.injEq] at h2
            exact Or.inr (by simp [h2.1])
          · rw [if_neg hgt] at h2
            exact Or.inl h2
      · exact Or.inr (List.mem_cons_of_mem _ h2)
  rcases gen choices none b s h with h2 | h2
  · simp at h2
  · exact h2

/-- With a lower-case-keyed synonym map and its own key list as choices
(the orchestrator's configuration), the resolver never raises. -/
theorem map_skill_ok (skill : String) (synonymToSkill : List (String × String))
    (skillLookup : List (String × List (String × JVal))) (thr : ℚ)
    (hkeys : ∀ k ∈ synonymToSkill.map Prod.fst, pyLower k = k) :
    ∃ r, map_skill_with_synonyms_verbose skill synonymToSkill skillLookup
      (synonymToSkill.map Prod.fst) thr = .ok r := by
  rw [map_skill_with_synonyms_verbose]
  cases hx : lookupA synonymToSkill (pyLower (pyStrip skill)) with
  | some baseSkill => exact ⟨_, rfl⟩
  | none =>
    cases he : extractOneTS (pyLower (pyStrip skill)) (synonymToSkill.map Prod.fst) with
    | none => exact ⟨_, rfl⟩
    | some best =>
      dsimp only
      by_cases hthr : thr ≤ best.2
      · rw [if_pos hthr]
        have hb : best.1 ∈ synonymToSkill.map Prod.fst :=
          extractOneTS_mem _ _ best.1 best.2 (by rw [he])
        have hlow : pyLower best.1 = best.1 := hkeys best.1 hb
        have hsome := lookupA_isSome_of_mem_keys synonymToSkill best.1 hb
        rw [hlow]
        cases hl : lookupA synonymToSkill best.1 with
        | none => rw [hl] at hsome; simp at hsome
        | some baseSkill => exact ⟨_, rfl⟩
      · rw [if_neg hthr]
        exact ⟨_, rfl⟩

/-- The skill-levels-to-ids fold never raises in the orchestrator's
configuration. -/
theorem mapSkillFold_ok (synonyms : List (String × List String))
    (skillLookup : List (String × List (String × JVal))) (thr : ℚ)
    (lvls : List (String × JVal)) :
    ∀ acc, ∃ out,
      List.foldlM (mapSkillFold (buildSynonymToSkill (buildSkillSynonyms synonyms))
        skillLookup ((buildSynonymToSkill (buildSkillSynonyms synonyms)).map Prod.fst) thr)
        acc lvls = .ok out := by
  induction lvls with
  | nil => intro acc; exact ⟨acc, rfl⟩
  | cons kv t ih =>
    intro acc
    rw [List.foldlM_cons]
    obtain ⟨r, hr⟩ := map_skill_ok kv.1 (buildSynonymToSkill (buildSkillSynonyms synonyms))
      skillLookup thr (buildSynonymToSkill_keys_lower synonyms)
    rw [mapSkillFold, hr]
    simp only [Bind.bind, Except.bind]
    cases hid : r.id with
    | some idv =>
      dsimp only
      by_cases ht : pyTruthy idv
      · rw [if_pos ht]
        obtain ⟨out, hout⟩ := ih (dictSet acc (pyStr idv) kv.2)
        exact ⟨out, hout⟩
      · rw [if_neg ht]
        obtain ⟨out, hout⟩ := ih (dictSet acc kv.1 kv.2)
        exact ⟨out, hout⟩
    | none =>
      obtain ⟨out, hout⟩ := ih (dictSet acc kv.1 kv.2)
      exact ⟨out, hout⟩

/-- Fuelled digit lists are never empty. -/
theorem natDigitsF_ne_nil (fuel n : Nat) : natDigitsF (fuel + 1) n ≠ [] := by
  rw [natDigitsF]
  by_cases h : n < 10
  · simp [h]
  · rw [if_neg h]
    simp

/-- Integer renderings are never empty. -/
theorem intReprL_ne_nil (i : Int) : intReprL i ≠ [] := by
  rw [intReprL]
  by_cases h : i < 0
  · simp [h]
  · rw [if_neg h]
    exact natDigitsF_ne_nil _ _

/-- `String.mk` of a non-empty list is not the empty string. -/
theorem stringMk_ne_empty (l : List Char) (h : l ≠ []) : String.mk l ≠ "" := by
  intro he
  exact h (congrArg String.data he)

/-- Truthy values render to non-empty strings. -/
theorem pyStr_ne_empty (v : JVal) (h : pyTruthy v = true) : pyStr v ≠ "" := by
  cases v with
  | null => simp [pyTruthy] at h
  | bool b =>
    cases b
    · simp [pyTruthy] at h
    · show ("True" : String) ≠ ""
      decide
  | num q =>
    show ratRepr q ≠ ""
    rw [ratRepr]
    by_cases hd : q.den = 1
    · rw [if_pos hd, intRepr]
      exact stringMk_ne_empty _ (intReprL_ne_nil _)
    · rw [if_neg hd]
      apply stringMk_ne_empty
      intro he
      exact intReprL_ne_nil q.num (List.append_eq_nil.mp he).1
  | str s =>
    show s ≠ ""
    simpa [pyTruthy] using h
  | arr xs =>
    show "[" ++ joinSep ", " (xs.map (pyReprF 999)) ++ "]" ≠ ""
    intro he
    have h2 : ('[' :: (joinSep ", " (xs.map (pyReprF 999))).data ++ [']']) = [] :=
      congrArg String.data he
    simp at h2
  | obj kvs =>
    show "\x7b" ++ joinSep ", "
        (kvs.map (fun kv => "'" ++ kv.1 ++ "': " ++ pyReprF 999 kv.2)) ++ "\x7d" ≠ ""
    intro he
    have h2 : ('{' :: (joinSep ", "
        (kvs.map (fun kv => "'" ++ kv.1 ++ "': " ++ pyReprF 999 kv.2))).data ++ ['}']) = [] :=
      congrArg String.data he
    simp at h2

/-- The rendered industry components are never empty, and a missing or
falsy (`None`/`""`) component renders as `"unknown"`. -/
theorem industryComponent_spec (o : Option JVal) :
    pyStr (orDefault o (.str "unknown")) ≠ ""
    ∧ ((o = none ∨ o = some JVal.null ∨ o = some (JVal.str "")) →
      pyStr (orDefault o (.str "unknown")) = "unknown") := by
  constructor
  · cases o with
    | none => simp [orDefault, pyStr]
    | some v =>
      rw [orDefault]
      by_cases ht : pyTruthy v
      · rw [if_pos ht]
        exact pyStr_ne_empty v ht
      · rw [if_neg ht]
        simp [pyStr]
  · intro h
    rcases h with rfl | rfl | rfl <;> simp [orDefault, pyTruthy, pyStr]

/-- Characterization of `process_job` under well-typed record fields and
well-typed stage outputs: it succeeds and returns exactly the merged
record assembled in job_extractor.py lines 96-104. -/
theorem process_job_spec (taxonomy : List (String × List (String × JVal)))
    (synonyms : List (String × List String)) (fuzzyThreshold : ℚ)
    (industryMapping : List (String × List String))
    (llmConfig : List (String × JVal)) (prompts : List (String × String))
    (jobRecord : List (String × JVal)) (llm1 llm2 : Option String) (llm3 : String)
    (ds cis : String) (hs sl : List String) (lvls : List (String × JVal))
    (hd : (lookupA jobRecord "description").getD (.str "") = .str ds)
    (hci : (lookupA jobRecord "company_industry").getD (.str "") = .str cis)
    (hhs : cleanSkillList
      (extract_skills (clean_job_description ds) llmConfig prompts llm1).hard_skills = .ok hs)
    (hsl : cleanSkillList
      (extract_skills (clean_job_description ds) llmConfig prompts llm1).spoken_languages
      = .ok sl)
    (hlv : pyItems
      (estimate_skill_levels (clean_job_description ds) hs sl llmConfig prompts
        llm2).skill_levels = .ok lvls) :
    ∃ sm,
      process_job taxonomy synonyms fuzzyThreshold industryMapping llmConfig prompts
        jobRecord llm1 llm2 llm3 =
      .ok (dictSet (dictSet (dictSet (dictSet (dictSet (dictSet
        (originalColumns.map (fun c => (c, (lookupA jobRecord c).getD .null)))
        "hard_skills" (.obj sm))
        "spoken_languages"
        (estimate_skill_levels (clean_job_description ds) hs sl llmConfig prompts
          llm2).spoken_languages_levels)
        "contact_details"
        (estimate_skill_levels (clean_job_description ds) hs sl llmConfig prompts
          llm2).contact_details)
        "language_description"
        (estimate_skill_levels (clean_job_description ds) hs sl llmConfig prompts
          llm2).language_description)
        "company_industry" (.str (industryStr (map_industry industryMapping cis llm3))))
        "description" (.str (clean_job_description ds))) := by
  obtain ⟨sm, hsm⟩ := mapSkillFold_ok synonyms (buildSkillToInfo taxonomy) fuzzyThreshold
    lvls []
  refine ⟨sm, ?_⟩
  rw [process_job]
  rw [hd, hci]
  simp only [pyAsStr, Bind.bind, Except.bind, hhs, hsl, hlv, hsm, Pure.pure, Except.pure]

/-! ## Claim C2: the orchestrator always assembles a full record -/

/-- **C2.** For every job record whose `description` and
`company_industry` fields are strings (or absent, per the `RawJobRecord`
data model) and arbitrary backend outcomes for the three generative calls
(`llm1`, `llm2` exhausted retries or any returned text whose parsed
stage-2 lists and stage-3 level mapping are well-typed — which in
particular covers every backend-exhaustion and parse-failure outcome,
since the stage defaults are well-typed), `process_job` returns a fully
assembled enriched record containing the `hard_skills`,
`spoken_languages`, `contact_details`, `language_description` and
`company_industry` fields; no stage failure makes it raise. -/
theorem C2_process_job_always_assembles (taxonomy : List (String × List (String × JVal)))
    (synonyms : List (String × List String)) (fuzzyThreshold : ℚ)
    (industryMapping : List (String × List String))
    (llmConfig : List (String × JVal)) (prompts : List (String × String))
    (jobRecord : List (String × JVal)) (llm1 llm2 : Option String) (llm3 : String)
    (ds cis : String) (hs sl : List String) (lvls : List (String × JVal))
    (hd : (lookupA jobRecord "description").getD (.str "") = .str ds)
    (hci : (lookupA jobRecord "company_industry").getD (.str "") = .str cis)
    (hhs : cleanSkillList
      (extract_skills (clean_job_description ds) llmConfig prompts llm1).hard_skills = .ok hs)
    (hsl : cleanSkillList
      (extract_skills (clean_job_description ds) llmConfig prompts llm1).spoken_languages
      = .ok sl)
    (hlv : pyItems
      (estimate_skill_levels (clean_job_description ds) hs sl llmConfig prompts
        llm2).skill_levels = .ok lvls) :
    ∃ out,
      process_job taxonomy synonyms fuzzyThreshold industryMapping llmConfig prompts
        jobRecord llm1 llm2 llm3 = .ok out
      ∧ (lookupA out "hard_skills").isSome
      ∧ (lookupA out "spoken_languages").isSome
      ∧ (lookupA out "contact_details").isSome
      ∧ (lookupA out "language_description").isSome
      ∧ (lookupA out "company_industry").isSome := by
  obtain ⟨sm, hmain⟩ := process_job_spec taxonomy synonyms fuzzyThreshold industryMapping
    llmConfig prompts jobRecord llm1 llm2 llm3 ds cis hs sl lvls hd hci hhs hsl hlv
  refine ⟨_, hmain, ?_, ?_, ?_, ?_, ?_⟩
  · rw [lookupA_dictSet_ne _ _ _ _ (by decide), lookupA_dictSet_ne _ _ _ _ (by decide),
      lookupA_dictSet_ne _ _ _ _ (by decide), lookupA_dictSet_ne _ _ _ _ (by decide),
      lookupA_dictSet_ne _ _ _ _ (by decide), lookupA_dictSet_self]
    rfl
  · rw [lookupA_dictSet_ne _ _ _ _ (by decide), lookupA_dictSet_ne _ _ _ _ (by decide),
      lookupA_dictSet_ne _ _ _ _ (by decide), lookupA_dictSet_ne _ _ _ _ (by decide),
      lookupA_dictSet_self]
    rfl
  · rw [lookupA_dictSet_ne _ _ _ _ (by decide), lookupA_dictSet_ne _ _ _ _ (by decide),
      lookupA_dictSet_ne _ _ _ _ (by decide), lookupA_dictSet_self]
    rfl
  · rw [lookupA_dictSet_ne _ _ _ _ (by decide), lookupA_dictSet_ne _ _ _ _ (by decide),
      lookupA_dictSet_self]
    rfl
  · rw [lookupA_dictSet_ne _ _ _ _ (by decide), lookupA_dictSet_self]
    rfl

/-- Witness for C2: a record with only its required id, every backend
call failed (`none`/`""`), empty taxonomy data. -/
theorem C2_process_job_always_assembles_witness :
    ∃ out,
      process_job [] [] 85 [] [] [] [("id", JVal.str "j-1")] none none "" = .ok out
      ∧ (lookupA out "hard_skills").isSome
      ∧ (lookupA out "spoken_languages").isSome
      ∧ (lookupA out "contact_details").isSome
      ∧ (lookupA out "language_description").isSome
      ∧ (lookupA out "company_industry").isSome :=
  C2_process_job_always_assembles [] [] 85 [] [] [] [("id", JVal.str "j-1")]
    none none "" "" "" [] [] [] rfl rfl rfl rfl rfl

/-! ## Claim C9: the shape of the company_industry field -/

/-- **C9.** Under the same well-typedness conditions as C2, the
`company_industry` field of the enriched record is exactly
`"<main>: <sub>"` rendered from the industry-mapping result; both
components are non-empty, and a component whose key is missing or mapped
to a falsy value (`None` or `""`) renders as `"unknown"`. -/
theorem C9_company_industry_shape (taxonomy : List (String × List (String × JVal)))
    (synonyms : List (String × List String)) (fuzzyThreshold : ℚ)
    (industryMapping : List (String × List String))
    (llmConfig : List (String × JVal)) (prompts : List (String × String))
    (jobRecord : List (String × JVal)) (llm1 llm2 : Option String) (llm3 : String)
    (ds cis : String) (hs sl : List String) (lvls : List (String × JVal))
    (hd : (lookupA jobRecord "description").getD (.str "") = .str ds)
    (hci : (lookupA jobRecord "company_industry").getD (.str "") = .str cis)
    (hhs : cleanSkillList
      (extract_skills (clean_job_description ds) llmConfig prompts llm1).hard_skills = .ok hs)
    (hsl : cleanSkillList
      (extract_skills (clean_job_description ds) llmConfig prompts llm1).spoken_languages
      = .ok sl)
    (hlv : pyItems
      (estimate_skill_levels (clean_job_description ds) hs sl llmConfig prompts
        llm2).skill_levels = .ok lvls) :
    (∃ out,
      process_job taxonomy synonyms fuzzyThreshold industryMapping llmConfig prompts
        jobRecord llm1 llm2 llm3 = .ok out
      ∧ lookupA out "company_industry" =
        some (.str (industryStr (map_industry industryMapping cis llm3))))
    ∧ ∀ m : List (String × JVal),
        industryStr m = industryMainStr m ++ ": " ++ industrySubStr m
        ∧ industryMainStr m ≠ ""
        ∧ industrySubStr m ≠ ""
        ∧ ((lookupA m "main_industry" = none ∨ lookupA m "main_industry" = some JVal.null
            ∨ lookupA m "main_industry" = some (JVal.str "")) →
          industryMainStr m = "unknown")
        ∧ ((lookupA m "subindustry" = none ∨ lookupA m "subindustry" = some JVal.null
            ∨ lookupA m "subindustry" = some (JVal.str "")) →
          industrySubStr m = "unknown") := by
  constructor
  · obtain ⟨sm, hmain⟩ := process_job_spec taxonomy synonyms fuzzyThreshold industryMapping
      llmConfig prompts jobRecord llm1 llm2 llm3 ds cis hs sl lvls hd hci hhs hsl hlv
    refine ⟨_, hmain, ?_⟩
    rw [lookupA_dictSet_ne _ _ _ _ (by decide), lookupA_dictSet_self]
  · intro m
    refine ⟨rfl, (industryComponent_spec (lookupA m "main_industry")).1,
      (industryComponent_spec (lookupA m "subindustry")).1,
      (industryComponent_spec (lookupA m "main_industry")).2,
      (industryComponent_spec (lookupA m "subindustry")).2⟩

/-- Witness for C9: a record whose industry string hits the local
keyword short-circuit (`"Software"`), with all backend calls failed. -/
theorem C9_company_industry_shape_witness :
    (∃ out,
      process_job [] [] 85 [("Software", ["SaaS"])] [] []
        [("id", JVal.str "j-2"), ("company_industry", JVal.str "Software")]
        none none "" = .ok out
      ∧ lookupA out "company_industry" =
        some (.str (industryStr
          (map_industry [("Software", ["SaaS"])] "Software" ""))))
    ∧ industryStr (map_industry [("Software", ["SaaS"])] "Software" "")
      = "Software: unknown" :=
  ⟨(C9_company_industry_shape [] [] 85 [("Software", ["SaaS"])] [] []
      [("id", JVal.str "j-2"), ("company_industry", JVal.str "Software")]
      none none "" "" "Software" [] [] [] rfl rfl rfl rfl rfl).1, rfl⟩

/-! ## Claim C3: the retry/backoff behaviour of the backend clients -/

/-- Every sleep of the `call_llm` loop lasts exactly one second, and a
returned body never strips to empty. -/
theorem callLLMGo_spec (env : Nat → LlmAttempt) :
    ∀ n i, (∀ d ∈ (callLLMGo env n i).1, d = 1)
      ∧ ∀ out, (callLLMGo env n i).2 = some out → pyStrip out ≠ "" := by
  intro n
  induction n with
  | zero => intro i; simp [callLLMGo]
  | succ n ih =>
    intro i
    cases h : env i with
    | transportErr =>
      simp only [callLLMGo, h]
      exact ⟨fun d hd => by
          rcases List.mem_cons.mp hd with rfl | hd
          · rfl
          · exact (ih (i + 1)).1 d hd,
        (ih (i + 1)).2⟩
    | response status chunks =>
      simp only [callLLMGo, h]
      by_cases hst : status ≠ 200
      · simp only [if_pos hst]
        exact ⟨fun d hd => by
            rcases List.mem_cons.mp hd with rfl | hd
            · rfl
            · exact (ih (i + 1)).1 d hd,
          (ih (i + 1)).2⟩
      · simp only [if_neg hst]
        cases ha : assembleChunks chunks with
        | error e =>
          exact ⟨fun d hd => by
              rcases List.mem_cons.mp hd with rfl | hd
              · rfl
              · exact (ih (i + 1)).1 d hd,
            (ih (i + 1)).2⟩
        | ok fullOutput =>
          by_cases hs : pyStrip fullOutput = ""
          · simp only [if_pos hs]
            exact ih (i + 1)
          · simp only [if_neg hs]
            exact ⟨fun d hd => by simp at hd, fun out hout => by
              simp only [Option.some.injEq] at hout
              exact hout ▸ hs⟩

/-- Every sleep of the `call_local_llm` loop lasts exactly one second. -/
theorem callLocalGo_sleeps (env : Nat → LlmAttempt) :
    ∀ n i, ∀ d ∈ (callLocalGo env n i).1, d = 1 := by
  intro n
  induction n with
  | zero => intro i; simp [callLocalGo]
  | succ n ih =>
    intro i
    cases h : env i with
    | transportErr =>
      simp only [callLocalGo, h]
      intro d hd
      rcases List.mem_cons.mp hd with rfl | hd
      · rfl
      · exact ih (i + 1) d hd
    | response status chunks =>
      simp only [callLocalGo, h]
      cases ha : assembleChunks chunks with
      | error e =>
        intro d hd
        rcases List.mem_cons.mp hd with rfl | hd
        · rfl
        · exact ih (i + 1) d hd
      | ok fullOutput => simp

/-- **C3 counterexample.**  With a configuration carrying
`base_delay = 5`, `max_delay = 60`, `jitter_bound = 0` and
`max_retries = 2`, and an environment whose first attempt fails in
transport, the claimed wait before the second attempt is
`min(base_delay·2^(attempt−1), max_delay) + uniform(0,0) = 5` seconds —
but the client sleeps exactly `1` second (it never reads the backoff
options). -/
theorem C3_counterexample :
    call_llm c3Cfg c3Env = ([1], some "hello")
    ∧ (1 : ℚ) ≠ min ((5 : ℚ) * 2 ^ (1 - 1)) 60 + 0 := by
  refine ⟨rfl, ?_⟩
  norm_num

/-- **C3 (amended).**  On a transport failure, a non-success status, or a
chunk-processing error, `call_llm` waits a constant `1` second before the
next attempt (ignoring any `base_delay`/`max_delay`/`jitter_bound`
configuration, with no exponential growth and no jitter); on a
whitespace-only body it retries immediately without waiting; it returns
the first body that is not whitespace-only.  `call_local_llm` likewise
only ever sleeps `1` second (and returns the first attempt whose chunk
processing succeeds, even with an empty body). -/
theorem C3_constant_one_second_waits (cfg : List (String × JVal))
    (env : Nat → LlmAttempt) :
    (∀ d ∈ (call_llm cfg env).1, d = 1)
    ∧ (∀ out, (call_llm cfg env).2 = some out → pyStrip out ≠ "")
    ∧ (∀ d ∈ (call_local_llm cfg env).1, d = 1) :=
  ⟨(callLLMGo_spec env (cfgNat cfg "max_retries" 1) 1).1,
   (callLLMGo_spec env (cfgNat cfg "max_retries" 1) 1).2,
   callLocalGo_sleeps env (cfgNat cfg "max_retries" 2) 1⟩

/-- Witness for C3 (amended) at concrete runs: the single recorded sleep
of `call_llm c3Cfg c3Env` is `1` second, the returned body `"hello"` is
not whitespace-only, and the sleeps of an always-failing
`call_local_llm` run are `1` second each. -/
theorem C3_constant_one_second_waits_witness :
    (1 : ℚ) = 1 ∧ pyStrip "hello" ≠ "" ∧ (1 : ℚ) = 1 :=
  ⟨(C3_constant_one_second_waits c3Cfg c3Env).1 1 (by decide),
   (C3_constant_one_second_waits c3Cfg c3Env).2.1 "hello" (by rfl),
   (C3_constant_one_second_waits c3Cfg c3EnvFail).2.2 1 (by decide)⟩

/-! ## Claim C10: sanitation of the stage-2 lists -/

/-- Heads surviving `dropWhile p` fail `p`. -/
theorem head?_dropWhile (p : Char → Bool) (l : List Char) (c : Char)
    (h : (l.dropWhile p).head? = some c) : p c = false := by
  induction l with
  | nil => simp [List.dropWhile] at h
  | cons a t ih =>
    rw [List.dropWhile_cons] at h
    by_cases hp : p a
    · exact ih (by simpa [hp] using h)
    · rw [if_neg hp, List.head?_cons, Option.some.injEq] at h
      subst h
      simpa using hp

/-- `dropWhile` of a list whose head fails `p` is the list itself. -/
theorem dropWhile_eq_self (p : Char → Bool) (l : List Char)
    (h : ∀ c, l.head? = some c → p c = false) : l.dropWhile p = l := by
  cases l with
  | nil => rfl
  | cons a t => simp [List.dropWhile_cons, h a rfl]

/-- `lstripL` is idempotent. -/
theorem lstripL_idem (l : List Char) : lstripL (lstripL l) = lstripL l :=
  List.dropWhile_idempotent isPyWs l

/-- `rstripL` is idempotent. -/
theorem rstripL_idem (l : List Char) : rstripL (rstripL l) = rstripL l := by
  simp [rstripL, List.reverse_reverse, List.dropWhile_idempotent]

/-- `rstripL l` is a prefix of `l`. -/
theorem rstripL_pre (l : List Char) : rstripL l <+: l := by
  have h := List.dropWhile_suffix (l := l.reverse) isPyWs
  have := List.reverse_prefix.mpr h
  simpa [rstripL] using this

/-- The head survives `rstripL` (or the result is empty). -/
theorem rstripL_head? (l : List Char) (c : Char) (h : (rstripL l).head? = some c) :
    l.head? = some c := by
  rcases rstripL_pre l with ⟨t, ht⟩
  cases hr : rstripL l with
  | nil => rw [hr] at h; simp at h
  | cons a r =>
    rw [hr] at h ht
    simp at h
    rw [← ht, ← h]
    rfl

/-- `stripL` is idempotent. -/
theorem stripL_idem (l : List Char) : stripL (stripL l) = stripL l := by
  have hl : lstripL (rstripL (lstripL l)) = rstripL (lstripL l) := by
    apply dropWhile_eq_self
    intro c hc
    have hh := rstripL_head? (lstripL l) c hc
    exact head?_dropWhile isPyWs l c hh
  simp only [stripL, hl, rstripL_idem]

/-- `pyStrip` is idempotent. -/
theorem pyStrip_idem (s : String) : pyStrip (pyStrip s) = pyStrip s := by
  simp [pyStrip, stripL_idem]

/-- Members of the `stripFoldFn` fold are non-empty and stripped. -/
theorem stripFold_mem (elems : List JVal) :
    ∀ l, List.foldrM stripFoldFn [] elems = .ok l →
      ∀ s ∈ l, s ≠ "" ∧ pyStrip s = s := by
  induction elems with
  | nil =>
    intro l h s hs
    simp only [List.foldrM_nil] at h
    cases h
    simp at hs
  | cons e t ih =>
    intro l h s hs
    rw [List.foldrM_cons] at h
    cases hft : List.foldrM stripFoldFn [] t with
    | error he => rw [hft] at h; simp [Bind.bind, Except.bind] at h
    | ok lt =>
      rw [hft] at h
      simp only [Bind.bind, Except.bind, stripFoldFn] at h
      cases hes : pyAsStr e with
      | error he2 => rw [hes] at h; simp at h
      | ok se =>
        rw [hes] at h
        simp only [Bind.bind, Except.bind] at h
        by_cases hse : pyStrip se = ""
        · rw [if_pos hse] at h
          cases h
          exact ih _ hft s hs
        · rw [if_neg hse] at h
          cases h
          rcases List.mem_cons.mp hs with rfl | hs2
          · exact ⟨hse, pyStrip_idem se⟩
          · exact ih _ hft s hs2

/-- The elementwise filter of `cleanSkillList` keeps exactly the non-empty
strips. -/
theorem cleanSkillList_fold (xs : List String) :
    List.foldrM stripFoldFn [] (xs.map JVal.str) =
    Except.ok ((xs.map pyStrip).filter (fun s => ¬ (s = ""))) := by
  induction xs with
  | nil => rfl
  | cons x t ih =>
    simp only [List.map_cons, List.foldrM_cons, ih]
    by_cases hx : pyStrip x = "" <;>
      simp [stripFoldFn, pyAsStr, hx, Bind.bind, Except.bind, Pure.pure, Except.pure,
        List.filter_cons]

/-- **C10.** The hard-skill and spoken-language lists the orchestrator
passes from stage 2 into stage 3 (`cleanSkillList`, job_extractor.py lines
60-61) contain only non-empty, whitespace-stripped strings; on a list of
strings the result is exactly `strip` mapped over the elements with the
empty strips dropped. -/
theorem C10_stage2_lists_sanitized :
    (∀ v l, cleanSkillList v = .ok l → ∀ s ∈ l, s ≠ "" ∧ pyStrip s = s)
    ∧ ∀ xs : List String,
      cleanSkillList (.arr (xs.map JVal.str)) =
        .ok ((xs.map pyStrip).filter (fun s => ¬ (s = ""))) := by
  constructor
  · intro v l h s hs
    rcases hv : pyIterElems v with he | elems
    · rw [cleanSkillList, hv] at h
      simp [Bind.bind, Except.bind] at h
    · rw [cleanSkillList, hv] at h
      simp only [Bind.bind, Except.bind] at h
      exact stripFold_mem elems l h s hs
  · intro xs
    simp only [cleanSkillList, pyIterElems, Bind.bind, Except.bind]
    exact cleanSkillList_fold xs

/-- Witness for C10 on a concrete stage-2 output: `"  SQL  "` is kept as
`"SQL"`, `"  "` and `""` are dropped; the kept element is non-empty and
stripped. -/
theorem C10_stage2_lists_sanitized_witness :
    cleanSkillList (.arr (["  SQL  ", "  ", ""].map JVal.str)) = .ok ["SQL"]
    ∧ ("SQL" ≠ "" ∧ pyStrip "SQL" = "SQL") := by
  refine ⟨?_, ?_⟩
  · have h := C10_stage2_lists_sanitized.2 ["  SQL  ", "  ", ""]
    simpa using h
  · exact C10_stage2_lists_sanitized.1 (.arr (["  SQL  ", "  ", ""].map JVal.str)) ["SQL"]
      (by have h := C10_stage2_lists_sanitized.2 ["  SQL  ", "  ", ""]; simpa using h)
      "SQL" (by decide)

/-- Witness for C8 (amended), exercising both the exact branch (`"py"`)
and the fuzzy branch (`"pythonn"`, scoring `1200/13 ≈ 92.3 ≥ 85` against
`"python"`), in both cases with an empty taxonomy lookup. -/
theorem C8_missing_taxonomy_entry_witness :
    map_skill_with_synonyms_verbose "py" [("py", "python")] [] ["py"] 85 =
      .ok ⟨some "python", none⟩
    ∧ map_skill_with_synonyms_verbose "pythonn" [("python", "python")] [] ["python"] 85 =
      .ok ⟨some "python", none⟩ :=
  ⟨(C8_missing_taxonomy_entry "py" "python" [("py", "python")] [] ["py"] 85).1
      (by rfl) (by rfl),
   (C8_missing_taxonomy_entry "pythonn" "python" [("python", "python")] [] ["python"] 85).2
      "python" (mkRat 1200 13) (by rfl) (by rfl) (by decide) (by rfl) (by rfl)⟩

/-! ## Infix toolkit for the idempotence development -/

/-- A prefix is an infix. -/
theorem infOfPre {p l : List Char} (h : p <+: l) : p <:+: l := by
  obtain ⟨t, ht⟩ := h
  exact ⟨[], t, by simpa using ht⟩

/-- A suffix is an infix. -/
theorem infOfSuf {p l : List Char} (h : p <:+ l) : p <:+: l := by
  obtain ⟨s, hs⟩ := h
  exact ⟨s, [], by simpa using hs⟩

/-- Members of an infix are members. -/
theorem memOfInf {p l : List Char} {c : Char} (h : p <:+: l) (hc : c ∈ p) : c ∈ l := by
  obtain ⟨s, t, hst⟩ := h
  subst hst
  simp [hc]

/-- Members of a suffix are members. -/
theorem memOfSuf {p l : List Char} {c : Char} (h : p <:+ l) (hc : c ∈ p) : c ∈ l :=
  memOfInf (infOfSuf h) hc

/-- An infix of the tail is an infix. -/
theorem infConsLift {p l : List Char} (c : Char) (h : p <:+: l) : p <:+: c :: l := by
  obtain ⟨s, t, hst⟩ := h
  exact ⟨c :: s, t, by simp [hst]⟩

/-- A suffix of the tail is a suffix. -/
theorem sufConsLift {p l : List Char} (c : Char) (h : p <:+ l) : p <:+ c :: l := by
  obtain ⟨s, hs⟩ := h
  exact ⟨c :: s, by simp [hs]⟩

/-- An infix of a cons is a prefix of it or an infix of the tail. -/
theorem infConsSplit {p l : List Char} {c : Char} (h : p <:+: c :: l) :
    p <+: c :: l ∨ p <:+: l := by
  obtain ⟨s, t, hst⟩ := h
  cases s with
  | nil => exact Or.inl ⟨t, by simpa using hst⟩
  | cons d s =>
    simp only [List.cons_append] at hst
    rw [List.cons.injEq] at hst
    exact Or.inr ⟨s, t, hst.2⟩

/-- Transitivity of the infix relation. -/
theorem infTrans {p m l : List Char} (h1 : p <:+: m) (h2 : m <:+: l) : p <:+: l := by
  obtain ⟨s1, t1, h1⟩ := h1
  obtain ⟨s2, t2, h2⟩ := h2
  subst h1
  exact ⟨s2 ++ s1, t1 ++ t2, by simpa using h2⟩

/-- An infix of the right part of an append is an infix. -/
theorem infAppendRight {p v : List Char} (u : List Char) (h : p <:+: v) : p <:+: u ++ v := by
  obtain ⟨s, t, hst⟩ := h
  exact ⟨u ++ s, t, by simp [hst]⟩

/-- An infix of the left part of an append is an infix. -/
theorem infAppendLeft {p u : List Char} (v : List Char) (h : p <:+: u) : p <:+: u ++ v := by
  obtain ⟨s, t, hst⟩ := h
  exact ⟨s, t ++ v, by rw [← hst]; simp⟩

/-- The last member of a list is a member. -/
theorem lastMem {l : List Char} {c : Char} (h : l.getLast? = some c) : c ∈ l := by
  induction l with
  | nil => simp at h
  | cons a t ih =>
    cases t with
    | nil => simp at h; simp [h]
    | cons b r =>
      rw [List.getLast?_cons_cons] at h
      exact List.mem_cons_of_mem a (ih h)

/-- Where a two-character infix of an append can sit. -/
theorem pairSplitAppend {a b : Char} : ∀ (u v : List Char), [a, b] <:+: u ++ v →
    [a, b] <:+: u ∨ [a, b] <:+: v ∨ (u.getLast? = some a ∧ v.head? = some b) := by
  intro u
  induction u with
  | nil => intro v h; exact Or.inr (Or.inl (by simpa using h))
  | cons c u' ih =>
    intro v h
    rw [List.cons_append] at h
    rcases infConsSplit h with hp | hi
    · obtain ⟨t, ht⟩ := hp
      rw [List.cons_append, List.cons_append, List.nil_append, List.cons.injEq] at ht
      obtain ⟨hac, ht2⟩ := ht
      cases u' with
      | nil =>
        rw [List.nil_append] at ht2
        refine Or.inr (Or.inr ⟨by simp [hac], ?_⟩)
        rw [← ht2]; rfl
      | cons d u'' =>
        rw [List.cons_append, List.cons.injEq] at ht2
        exact Or.inl (infOfPre ⟨u'', by simp [hac, ht2.1]⟩)
    · rcases ih v hi with h1 | h2 | ⟨h3, h4⟩
      · exact Or.inl (infConsLift c h1)
      · exact Or.inr (Or.inl h2)
      · cases u' with
        | nil => simp at h3
        | cons d u'' =>
          exact Or.inr (Or.inr ⟨by rw [List.getLast?_cons_cons]; exact h3, h4⟩)

/-- Where a three-character infix of an append can sit. -/
theorem triSplitAppend {a b c : Char} : ∀ (u v : List Char), [a, b, c] <:+: u ++ v →
    [a, b, c] <:+: u ∨ [a, b, c] <:+: v ∨
    (u.getLast? = some a ∧ [b, c] <+: v) ∨ ([a, b] <:+ u ∧ v.head? = some c) := by
  intro u
  induction u with
  | nil => intro v h; exact Or.inr (Or.inl (by simpa using h))
  | cons x u' ih =>
    intro v h
    rw [List.cons_append] at h
    rcases infConsSplit h with hp | hi
    · obtain ⟨t, ht⟩ := hp
      rw [List.cons_append, List.cons_append, List.cons_append, List.nil_append,
        List.cons.injEq] at ht
      obtain ⟨hax, ht2⟩ := ht
      cases u' with
      | nil =>
        rw [List.nil_append] at ht2
        refine Or.inr (Or.inr (Or.inl ⟨by simp [hax], ⟨t, ht2⟩⟩))
      | cons d u'' =>
        rw [List.cons_append, List.cons.injEq] at ht2
        obtain ⟨hbd, ht3⟩ := ht2
        cases u'' with
        | nil =>
          rw [List.nil_append] at ht3
          refine Or.inr (Or.inr (Or.inr ⟨⟨[], by simp [hax, hbd]⟩, ?_⟩))
          rw [← ht3]; rfl
        | cons e u3 =>
          rw [List.cons_append, List.cons.injEq] at ht3
          exact Or.inl (infOfPre ⟨u3, by simp [hax, hbd, ht3.1]⟩)
    · rcases ih v hi with h1 | h2 | ⟨h3, h4⟩ | ⟨h5, h6⟩
      · exact Or.inl (infConsLift x h1)
      · exact Or.inr (Or.inl h2)
      · cases u' with
        | nil => simp at h3
        | cons d u'' =>
          exact Or.inr (Or.inr (Or.inl ⟨by rw [List.getLast?_cons_cons]; exact h3, h4⟩))
      · exact Or.inr (Or.inr (Or.inr ⟨sufConsLift x h5, h6⟩))

/-! ## Unfolding equations for the fuelled scanners -/

theorem sgo_nil (cur : List Char) :
    splitlinesGo [] cur = if cur.isEmpty then [] else [cur.reverse] := by
  rw [splitlinesGo]

theorem sgo_crlf (t cur : List Char) :
    splitlinesGo ('\r' :: '\n' :: t) cur = cur.reverse :: splitlinesGo t [] := by
  rw [splitlinesGo]

theorem sgo_cons (c : Char) (t cur : List Char)
    (h : ∀ r : List Char, c = '\r' → t = '\n' :: r → False) :
    splitlinesGo (c :: t) cur =
      if isLineBoundChar c then cur.reverse :: splitlinesGo t [] else splitlinesGo t (c :: cur) := by
  simp only [splitlinesGo, h]

theorem nlSubF_nil (f : Nat) : nlSubF f [] = [] := by cases f <;> rfl

theorem nlSubF_zero (l : List Char) : nlSubF 0 l = l := by cases l <;> rfl

theorem spaceSubF_zero (l : List Char) : spaceSubF 0 l = l := by cases l <;> rfl

theorem nlSubF_nl_some (f : Nat) (t : List Char) (k : Nat) (h : nlMatchLen t = some k) :
    nlSubF (f + 1) ('\n' :: t) = '\n' :: '\n' :: nlSubF f (t.drop k) := by
  rw [nlSubF]
  simp [h]

theorem nlSubF_nl_none (f : Nat) (t : List Char) (h : nlMatchLen t = none) :
    nlSubF (f + 1) ('\n' :: t) = '\n' :: nlSubF f t := by
  rw [nlSubF]
  simp [h]

theorem nlSubF_cons (f : Nat) (c : Char) (t : List Char) (h : ¬ c = '\n') :
    nlSubF (f + 1) (c :: t) = c :: nlSubF f t := by
  rw [nlSubF]
  simp [h]

theorem spaceSubF_sp_sp (f : Nat) (t : List Char) (h : t.head? = some ' ') :
    spaceSubF (f + 1) (' ' :: t) =
      ' ' :: spaceSubF f (t.dropWhile (fun d => d = ' ')) := by
  rw [spaceSubF]
  simp [h]

theorem spaceSubF_sp (f : Nat) (t : List Char) (h : ¬ t.head? = some ' ') :
    spaceSubF (f + 1) (' ' :: t) = ' ' :: spaceSubF f t := by
  rw [spaceSubF]
  simp [h]

theorem spaceSubF_cons (f : Nat) (c : Char) (t : List Char) (h : ¬ c = ' ') :
    spaceSubF (f + 1) (c :: t) = c :: spaceSubF f t := by
  rw [spaceSubF]
  simp [h]

theorem crlf_nil : replCRLF [] = [] := rfl

theorem crlf_crlf (t : List Char) : replCRLF ('\r' :: '\n' :: t) = '\n' :: replCRLF t := by
  rw [replCRLF]

theorem crlf_cons (c : Char) (t : List Char)
    (h : ∀ r : List Char, c = '\r' → t = '\n' :: r → False) :
    replCRLF (c :: t) = c :: replCRLF t := by
  simp only [replCRLF, h]

/-! ## Small facts about the whitespace predicates -/

theorem ws_of_wsNN {c : Char} (h : wsNN c = true) : isPyWs c = true := by
  simp only [wsNN, Bool.and_eq_true] at h
  exact h.1

theorem ne_nl_of_wsNN {c : Char} (h : wsNN c = true) : c ≠ '\n' := by
  simp only [wsNN, Bool.and_eq_true, decide_eq_true_eq] at h
  exact h.2

theorem wsNN_of_parts {c : Char} (h1 : isPyWs c = true) (h2 : c ≠ '\n') : wsNN c = true := by
  simp only [wsNN, Bool.and_eq_true, decide_eq_true_eq]
  exact ⟨h1, h2⟩

theorem ws_false_of_wsNN_false {c : Char} (h : wsNN c = false) (h2 : c ≠ '\n') :
    isPyWs c = false := by
  simp only [wsNN, Bool.and_eq_false_iff, decide_eq_true_eq] at h
  rcases h with h | h
  · exact h
  · exact absurd (by simpa using h) h2

/-! ## Transport of the invariants along infixes -/

theorem noWsNl_of_inf {m l : List Char} (h : m <:+: l) (hl : noWsNl l) : noWsNl m :=
  fun w hw hi => hl w hw (infTrans hi h)

theorem noNlWs_of_inf {m l : List Char} (h : m <:+: l) (hl : noNlWs l) : noNlWs m :=
  fun w hw hi => hl w hw (infTrans hi h)

theorem noTriNl_of_inf {m l : List Char} (h : m <:+: l) (hl : noTriNl l) : noTriNl m :=
  fun hi => hl (infTrans hi h)

theorem noDblSp_of_inf {m l : List Char} (h : m <:+: l) (hl : noDblSp l) : noDblSp m :=
  fun hi => hl (infTrans hi h)

theorem onlyNlBound_of_inf {m l : List Char} (h : m <:+: l) (hl : onlyNlBound l) :
    onlyNlBound m :=
  fun c hc hb => hl c (memOfInf h hc) hb

theorem noBadBlock_of_inf {m l : List Char} (h : m <:+: l) (hl : noBadBlock l) :
    noBadBlock m := by
  intro u w1 w2 v h1 h2 he
  obtain ⟨s, t, hst⟩ := h
  subst he
  exact hl (s ++ u) w1 w2 (v ++ t) h1 h2 (by rw [← hst]; simp)

/-! ## Character membership in the pipeline steps -/

theorem mem_replTab {c : Char} {l : List Char} (h : c ∈ replTab l) :
    c = ' ' ∨ (c ∈ l ∧ c ≠ '\t') := by
  rw [replTab, List.mem_map] at h
  obtain ⟨d, hd, he⟩ := h
  by_cases hdt : d = '\t'
  · left; rw [← he, if_pos hdt]
  · right; rw [← he, if_neg hdt]; exact ⟨hd, hdt⟩

theorem mem_replCRLF {c : Char} : ∀ {l : List Char}, c ∈ replCRLF l → c ∈ l := by
  intro l
  induction l using replCRLF.induct with
  | case1 => intro h; simp [crlf_nil] at h
  | case2 t ih =>
    intro h
    rw [crlf_crlf] at h
    rcases List.mem_cons.mp h with h | h
    · simp [h]
    · simp [ih h]
  | case3 d t hside ih =>
    intro h
    rw [crlf_cons d t hside] at h
    rcases List.mem_cons.mp h with h | h
    · simp [h]
    · simp [ih h]

theorem mem_replCR {c : Char} {l : List Char} (h : c ∈ replCR l) :
    c = '\n' ∨ (c ∈ l ∧ c ≠ '\r') := by
  rw [replCR, List.mem_map] at h
  obtain ⟨d, hd, he⟩ := h
  by_cases hdr : d = '\r'
  · left; rw [← he, if_pos hdr]
  · right; rw [← he, if_neg hdr]; exact ⟨hd, hdr⟩

theorem mem_nlSubF {c : Char} : ∀ (f : Nat) (l : List Char), c ∈ nlSubF f l →
    c = '\n' ∨ c ∈ l := by
  intro f l
  induction f, l using nlSubF.induct with
  | case1 t => intro h; rw [nlSubF_nil] at h; simp at h
  | case2 l hne => intro h; rw [nlSubF_zero] at h; exact Or.inr h
  | case3 fuel t k hm ih =>
    intro h
    rw [nlSubF_nl_some fuel t k hm] at h
    rcases List.mem_cons.mp h with h | h
    · exact Or.inl h
    rcases List.mem_cons.mp h with h | h
    · exact Or.inl h
    rcases ih h with h | h
    · exact Or.inl h
    · exact Or.inr (List.mem_cons_of_mem _ (List.mem_of_mem_drop h))
  | case4 fuel t hm ih =>
    intro h
    rw [nlSubF_nl_none fuel t hm] at h
    rcases List.mem_cons.mp h with h | h
    · exact Or.inl h
    rcases ih h with h | h
    · exact Or.inl h
    · exact Or.inr (List.mem_cons_of_mem _ h)
  | case5 fuel d t hd ih =>
    intro h
    rw [nlSubF_cons fuel d t hd] at h
    rcases List.mem_cons.mp h with h | h
    · exact Or.inr (by simp [h])
    rcases ih h with h | h
    · exact Or.inl h
    · exact Or.inr (List.mem_cons_of_mem _ h)

theorem mem_spaceSubF {c : Char} : ∀ (f : Nat) (l : List Char), c ∈ spaceSubF f l → c ∈ l := by
  intro f l
  induction f, l using spaceSubF.induct with
  | case1 t => intro h; cases t <;> simp [spaceSubF] at h
  | case2 l hne => intro h; rwa [spaceSubF_zero] at h
  | case3 fuel t hh ih =>
    intro h
    rw [spaceSubF_sp_sp fuel t hh] at h
    rcases List.mem_cons.mp h with h | h
    · simp [h]
    · exact List.mem_cons_of_mem _ (memOfSuf (List.dropWhile_suffix _) (ih h))
  | case4 fuel t hh ih =>
    intro h
    rw [spaceSubF_sp fuel t hh] at h
    rcases List.mem_cons.mp h with h | h
    · simp [h]
    · exact List.mem_cons_of_mem _ (ih h)
  | case5 fuel d t hd ih =>
    intro h
    rw [spaceSubF_cons fuel d t hd] at h
    rcases List.mem_cons.mp h with h | h
    · simp [h]
    · exact List.mem_cons_of_mem _ (ih h)

theorem sgo_line_mem {c : Char} : ∀ (l cur m : List Char), m ∈ splitlinesGo l cur → c ∈ m →
    (c ∈ l ∧ isLineBoundChar c = false) ∨ c ∈ cur := by
  intro l cur
  induction l, cur using splitlinesGo.induct with
  | case1 cur hc => intro m hm; rw [sgo_nil] at hm; simp [hc] at hm
  | case2 cur hc =>
    intro m hm hcm
    rw [sgo_nil, if_neg hc] at hm
    rcases List.mem_singleton.mp hm with h
    subst h
    exact Or.inr (List.mem_reverse.mp hcm)
  | case3 r cur ih =>
    intro m hm hcm
    rw [sgo_crlf] at hm
    rcases List.mem_cons.mp hm with h | h
    · subst h; exact Or.inr (List.mem_reverse.mp hcm)
    · rcases ih m h hcm with ⟨h1, h2⟩ | h1
      · exact Or.inl ⟨by simp [h1], h2⟩
      · simp at h1
  | case4 d t cur hside hb ih =>
    intro m hm hcm
    rw [sgo_cons d t cur hside, if_pos hb] at hm
    rcases List.mem_cons.mp hm with h | h
    · subst h; exact Or.inr (List.mem_reverse.mp hcm)
    · rcases ih m h hcm with ⟨h1, h2⟩ | h1
      · exact Or.inl ⟨List.mem_cons_of_mem _ h1, h2⟩
      · simp at h1
  | case5 d t cur hside hb ih =>
    intro m hm hcm
    rw [sgo_cons d t cur hside, if_neg hb] at hm
    rcases ih m hm hcm with ⟨h1, h2⟩ | h1
    · exact Or.inl ⟨List.mem_cons_of_mem _ h1, h2⟩
    · rcases List.mem_cons.mp h1 with h2 | h2
      · subst h2
        exact Or.inl ⟨List.mem_cons_self _ _, by simpa using hb⟩
      · exact Or.inr h2

theorem mem_joinNL {c : Char} : ∀ (L : List (List Char)), c ∈ joinNL L →
    c = '\n' ∨ ∃ m ∈ L, c ∈ m := by
  intro L
  induction L with
  | nil => intro h; simp [joinNL] at h
  | cons m M ih =>
    intro h
    cases M with
    | nil => exact Or.inr ⟨m, by simp, h⟩
    | cons m2 M2 =>
      rw [show joinNL (m :: m2 :: M2) = m ++ '\n' :: joinNL (m2 :: M2) from rfl] at h
      rcases List.mem_append.mp h with h | h
      · exact Or.inr ⟨m, by simp, h⟩
      rcases List.mem_cons.mp h with h | h
      · exact Or.inl h
      · rcases ih h with h | ⟨m3, hm3, hc3⟩
        · exact Or.inl h
        · exact Or.inr ⟨m3, List.mem_cons_of_mem _ hm3, hc3⟩

/-! ## Ends and membership of `stripL` -/

theorem lstripL_suf (l : List Char) : lstripL l <:+ l := List.dropWhile_suffix _

theorem stripL_inf (l : List Char) : stripL l <:+: l :=
  infTrans (infOfPre (rstripL_pre (lstripL l))) (infOfSuf (lstripL_suf l))

theorem mem_stripL {c : Char} {l : List Char} (h : c ∈ stripL l) : c ∈ l :=
  memOfInf (stripL_inf l) h

theorem stripL_head_nws {l : List Char} {c : Char} (h : (stripL l).head? = some c) :
    isPyWs c = false := by
  have h2 := rstripL_head? (lstripL l) c h
  exact head?_dropWhile isPyWs l c h2

theorem stripL_last_nws {l : List Char} {c : Char} (h : (stripL l).getLast? = some c) :
    isPyWs c = false := by
  rw [stripL, rstripL, List.getLast?_reverse] at h
  exact head?_dropWhile isPyWs (lstripL l).reverse c h

theorem stripL_id_of_ends {l : List Char}
    (h1 : ∀ c, l.head? = some c → isPyWs c = false)
    (h2 : ∀ c, l.getLast? = some c → isPyWs c = false) : stripL l = l := by
  have hl : lstripL l = l := dropWhile_eq_self isPyWs l h1
  have hr : l.reverse.dropWhile isPyWs = l.reverse := by
    apply dropWhile_eq_self
    intro c hc
    rw [List.head?_reverse] at hc
    exact h2 c hc
  rw [stripL, hl, rstripL, hr, List.reverse_reverse]

theorem all_ws_of_stripL_nil {l : List Char} (h : stripL l = []) :
    ∀ c ∈ l, isPyWs c = true := by
  have h2 : (lstripL l).reverse.dropWhile isPyWs = [] := by
    have := congrArg List.reverse h
    rw [stripL, rstripL, List.reverse_reverse] at this
    simpa using this
  rw [List.dropWhile_eq_nil_iff] at h2
  have h4 : lstripL l = [] := by
    cases hb : lstripL l with
    | nil => rfl
    | cons a m =>
      have hws : isPyWs a = true := h2 a (by simp [hb])
      have hnot : isPyWs a = false :=
        head?_dropWhile isPyWs l a (by rw [show l.dropWhile isPyWs = lstripL l from rfl, hb]; rfl)
      rw [hws] at hnot
      cases hnot
  rw [lstripL, List.dropWhile_eq_nil_iff] at h4
  exact h4

/-! ## Structure of `splitlinesPy` on boundary-free material -/

theorem sgo_nb_append : ∀ (line : List Char), (∀ c ∈ line, isLineBoundChar c = false) →
    ∀ (rest cur : List Char),
    splitlinesGo (line ++ '\n' :: rest) cur = (cur.reverse ++ line) :: splitlinesGo rest [] := by
  intro line
  induction line with
  | nil =>
    intro _ rest cur
    rw [List.nil_append,
      sgo_cons '\n' rest cur (fun r h _ => by exact absurd h (by decide)),
      if_pos (by decide)]
    simp
  | cons c line' ih =>
    intro h rest cur
    have hc : isLineBoundChar c = false := h c (by simp)
    rw [List.cons_append,
      sgo_cons c (line' ++ '\n' :: rest) cur
        (fun r hcr _ => by rw [hcr] at hc; exact absurd hc (by decide)),
      if_neg (by simp [hc]),
      ih (fun d hd => h d (List.mem_cons_of_mem _ hd)) rest (c :: cur)]
    simp

theorem sgo_nb_all : ∀ (line : List Char), (∀ c ∈ line, isLineBoundChar c = false) →
    ∀ (cur : List Char),
    splitlinesGo line cur =
      if cur.reverse ++ line = [] then [] else [cur.reverse ++ line] := by
  intro line
  induction line with
  | nil =>
    intro _ cur
    rw [sgo_nil]
    by_cases hc : cur = []
    · simp [hc]
    · rw [if_neg (by simpa using hc), if_neg (by simp [hc]), List.append_nil]
  | cons c line' ih =>
    intro h cur
    have hc : isLineBoundChar c = false := h c (by simp)
    rw [sgo_cons c line' cur (fun r hcr _ => by rw [hcr] at hc; exact absurd hc (by decide)),
      if_neg (by simp [hc]),
      ih (fun d hd => h d (List.mem_cons_of_mem _ hd)) (c :: cur),
      if_neg (by simp)]
    rw [if_neg (by simp)]
    simp

theorem sgo_ne_nil : ∀ (l cur : List Char), splitlinesGo l cur = [] → l = [] ∧ cur = [] := by
  intro l cur
  induction l, cur using splitlinesGo.induct with
  | case1 cur hc => intro _; exact ⟨rfl, List.isEmpty_iff.mp hc⟩
  | case2 cur hc => intro h; rw [sgo_nil, if_neg hc] at h; cases h
  | case3 r cur ih => intro h; rw [sgo_crlf] at h; cases h
  | case4 d t cur hside hb ih => intro h; rw [sgo_cons d t cur hside, if_pos hb] at h; cases h
  | case5 d t cur hside hb ih =>
    intro h
    rw [sgo_cons d t cur hside, if_neg hb] at h
    rcases ih h with ⟨_, h2⟩
    cases h2

/-- Split a list containing a line feed at its first line feed. -/
theorem nl_split (l : List Char) (h : '\n' ∈ l) :
    ∃ r, l = l.takeWhile (fun c => c ≠ '\n') ++ '\n' :: r := by
  have hd := List.takeWhile_append_dropWhile (fun c => decide (c ≠ '\n')) l
  cases hdw : l.dropWhile (fun c => decide (c ≠ '\n')) with
  | nil =>
    exfalso
    rw [hdw, List.append_nil] at hd
    have hmem : '\n' ∈ l.takeWhile (fun c => decide (c ≠ '\n')) := by rw [hd]; exact h
    have h2 := List.mem_takeWhile_imp hmem
    simp at h2
  | cons d r =>
    have hdn : decide (d ≠ '\n') = false :=
      head?_dropWhile _ l d (by rw [hdw]; rfl)
    have : d = '\n' := by simpa using hdn
    subst this
    exact ⟨r, by rw [← hdw, hd]⟩

/-- Characters of the first-line prefix are not line feeds. -/
theorem takeWhile_ne_nl {l : List Char} {c : Char}
    (h : c ∈ l.takeWhile (fun c => c ≠ '\n')) : c ≠ '\n' := by
  have := List.mem_takeWhile_imp h
  simpa using this

/-! ## Decompositions of `joinStripLines` -/

theorem jsl_nil : joinStripLines [] = [] := rfl

theorem jsl_dec (line rest : List Char) (hline : ∀ c ∈ line, isLineBoundChar c = false)
    (hr : rest ≠ []) :
    joinStripLines (line ++ '\n' :: rest) = stripL line ++ '\n' :: joinStripLines rest := by
  rw [joinStripLines, splitlinesPy, sgo_nb_append line hline rest []]
  cases hsp : splitlinesGo rest [] with
  | nil => exact absurd (sgo_ne_nil rest [] hsp).1 hr
  | cons m M =>
    rw [List.map_cons, List.map_cons, joinStripLines, splitlinesPy, hsp, List.map_cons]
    simp [joinNL]

theorem jsl_single (line : List Char) (hline : ∀ c ∈ line, isLineBoundChar c = false) :
    joinStripLines line = stripL line := by
  rw [joinStripLines, splitlinesPy, sgo_nb_all line hline []]
  by_cases hl : line = []
  · subst hl; simp [joinNL, stripL, lstripL, rstripL]
  · rw [if_neg (by simpa using hl)]
    simp [joinNL]

theorem jsl_end (line : List Char) (hline : ∀ c ∈ line, isLineBoundChar c = false) :
    joinStripLines (line ++ ['\n']) = stripL line := by
  rw [joinStripLines, splitlinesPy, sgo_nb_append line hline [] [],
    show splitlinesGo [] [] = [] from rfl]
  simp [joinNL]

/-- The head of a joined stripped text is a non-whitespace character or a
line feed. -/
theorem jsl_head {l : List Char} {w : Char} (h : (joinStripLines l).head? = some w) :
    isPyWs w = false ∨ w = '\n' := by
  rw [joinStripLines] at h
  cases hsp : splitlinesPy l with
  | nil => rw [hsp] at h; cases h
  | cons m M =>
    rw [hsp, List.map_cons] at h
    cases M with
    | nil =>
      simp only [List.map_nil] at h
      rw [show joinNL [stripL m] = stripL m from rfl] at h
      exact Or.inl (stripL_head_nws h)
    | cons m2 M2 =>
      rw [List.map_cons,
        show joinNL (stripL m :: stripL m2 :: M2.map stripL) =
          stripL m ++ '\n' :: joinNL (stripL m2 :: M2.map stripL) from rfl] at h
      cases hsm : stripL m with
      | nil =>
        rw [hsm, List.nil_append, List.head?_cons] at h
        exact Or.inr (by injection h with h2; exact h2.symm)
      | cons c r =>
        rw [hsm, List.cons_append, List.head?_cons] at h
        injection h with h
        subst h
        exact Or.inl (stripL_head_nws (by rw [hsm]; rfl))

/-! ## Identity of the three replacement passes on already-clean text -/

theorem replTab_id {l : List Char} (h : '\t' ∉ l) : replTab l = l := by
  induction l with
  | nil => rfl
  | cons c t ih =>
    rw [replTab, List.map_cons, if_neg (fun e => h (by subst e; exact List.mem_cons_self _ _)),
      show (t.map fun c => if c = '\t' then ' ' else c) = replTab t from rfl,
      ih (fun hm => h (List.mem_cons_of_mem _ hm))]

theorem replCRLF_id {l : List Char} (h : '\r' ∉ l) : replCRLF l = l := by
  induction l using replCRLF.induct with
  | case1 => rfl
  | case2 t ih => exact absurd (by simp) h
  | case3 d t hside ih =>
    rw [crlf_cons d t hside, ih (fun hm => h (List.mem_cons_of_mem _ hm))]

theorem replCR_id {l : List Char} (h : '\r' ∉ l) : replCR l = l := by
  induction l with
  | nil => rfl
  | cons c t ih =>
    rw [replCR, List.map_cons, if_neg (fun e => h (by subst e; exact List.mem_cons_self _ _)),
      show (t.map fun c => if c = '\r' then '\n' else c) = replCR t from rfl,
      ih (fun hm => h (List.mem_cons_of_mem _ hm))]

/-! ## The blank-line collapse: match-length facts -/

theorem nlMatchLen_eq (t : List Char) :
    nlMatchLen t =
      if '\n' ∈ t.takeWhile isPyWs then
        some (((t.takeWhile isPyWs).reverse.dropWhile (fun c => c ≠ '\n')).length)
      else none := rfl

theorem nlMatchLen_none {t : List Char} (h : nlMatchLen t = none) :
    '\n' ∉ t.takeWhile isPyWs := by
  intro hm
  rw [nlMatchLen_eq, if_pos hm] at h
  cases h

theorem sufLen {p l : List Char} (h : p <:+ l) : p.length ≤ l.length := by
  obtain ⟨s, hs⟩ := h
  rw [← hs, List.length_append]
  omega

theorem takeWhile_all_append (p : Char → Bool) : ∀ (u v : List Char),
    (∀ c ∈ u, p c = true) → (u ++ v).takeWhile p = u ++ v.takeWhile p := by
  intro u v
  induction u with
  | nil => intro _; simp
  | cons c u' ih =>
    intro h
    rw [List.cons_append, List.takeWhile_cons, if_pos (h c (by simp)),
      ih (fun d hd => h d (List.mem_cons_of_mem _ hd)), List.cons_append]

/-- After a match of the blank-line regex, the remaining whitespace run has
no line feed: the match extends through the last line feed of the run. -/
theorem nlMatchLen_some_drop {t : List Char} {k : Nat} (h : nlMatchLen t = some k) :
    '\n' ∉ (t.drop k).takeWhile isPyWs := by
  rw [nlMatchLen_eq] at h
  by_cases hm : '\n' ∈ t.takeWhile isPyWs
  case neg => rw [if_neg hm] at h; cases h
  rw [if_pos hm] at h
  injection h with hk
  have hwd : (t.takeWhile isPyWs).reverse.takeWhile (fun c => c ≠ '\n') ++
      (t.takeWhile isPyWs).reverse.dropWhile (fun c => c ≠ '\n') =
      (t.takeWhile isPyWs).reverse := List.takeWhile_append_dropWhile _ _
  have hrr : t.takeWhile isPyWs =
      ((t.takeWhile isPyWs).reverse.dropWhile (fun c => c ≠ '\n')).reverse ++
      ((t.takeWhile isPyWs).reverse.takeWhile (fun c => c ≠ '\n')).reverse := by
    have h2 := congrArg List.reverse hwd
    rw [List.reverse_append, List.reverse_reverse] at h2
    exact h2.symm
  have ht : t = t.takeWhile isPyWs ++ t.dropWhile isPyWs :=
    (List.takeWhile_append_dropWhile isPyWs t).symm
  have hk2 : k = ((t.takeWhile isPyWs).reverse.dropWhile (fun c => c ≠ '\n')).reverse.length := by
    rw [← hk, List.length_reverse]
  have hdrop : t.drop k =
      ((t.takeWhile isPyWs).reverse.takeWhile (fun c => c ≠ '\n')).reverse ++
      t.dropWhile isPyWs := by
    conv_lhs => rw [ht, hrr, List.append_assoc, hk2]
    exact List.drop_left _ _
  rw [hdrop]
  have hwws : ∀ c ∈ ((t.takeWhile isPyWs).reverse.takeWhile (fun c => c ≠ '\n')).reverse,
      isPyWs c = true := by
    intro c hc
    rw [List.mem_reverse] at hc
    have hcr : c ∈ (t.takeWhile isPyWs).reverse :=
      List.Sublist.mem hc (List.takeWhile_sublist _)
    rw [List.mem_reverse] at hcr
    exact List.mem_takeWhile_imp hcr
  rw [takeWhile_all_append _ _ _ hwws]
  have hdw : (t.dropWhile isPyWs).takeWhile isPyWs = [] := by
    cases hcase : t.dropWhile isPyWs with
    | nil => rfl
    | cons a r =>
      have ha : isPyWs a = false := head?_dropWhile isPyWs t a (by rw [hcase]; rfl)
      rw [List.takeWhile_cons, if_neg (by simp [ha])]
  rw [hdw, List.append_nil]
  intro hmem
  rw [List.mem_reverse] at hmem
  have h3 := List.mem_takeWhile_imp hmem
  simp at h3

/-! ## The collapse never leaves a whitespace-only prefix before a line feed -/

theorem noBadBlock_nil : noBadBlock [] := by
  intro u w1 w2 v _ _ he
  have h2 := congrArg List.length he
  simp at h2
  omega

theorem nlSubF_np : ∀ (f : Nat) (t : List Char), t.length ≤ f →
    '\n' ∉ t.takeWhile isPyWs →
    ∀ (w r : List Char), (∀ c ∈ w, wsNN c = true) → nlSubF f t ≠ w ++ '\n' :: r := by
  intro f
  induction f with
  | zero =>
    intro t ht _ w r _
    cases t with
    | nil =>
      rw [nlSubF_nil]
      intro he
      have h2 := congrArg List.length he
      simp at h2
      omega
    | cons c t2 => simp at ht
  | succ m ih =>
    intro t ht hpre w r hw
    cases t with
    | nil =>
      rw [nlSubF_nil]
      intro he
      have h2 := congrArg List.length he
      simp at h2
      omega
    | cons c t2 =>
      have hlt : t2.length ≤ m := by simp at ht; omega
      have hc : ¬ c = '\n' := by
        intro e
        subst e
        apply hpre
        rw [List.takeWhile_cons, if_pos (by decide)]
        exact List.mem_cons_self _ _
      rw [nlSubF_cons m c t2 hc]
      intro he
      cases w with
      | nil =>
        rw [List.nil_append] at he
        injection he with h1 _
        exact hc h1
      | cons cw w' =>
        injection he with h1 h2
        have hcw : wsNN c = true := by rw [h1]; exact hw cw (List.mem_cons_self _ _)
        have hws : isPyWs c = true := ws_of_wsNN hcw
        have hpre2 : '\n' ∉ t2.takeWhile isPyWs := by
          intro hm
          apply hpre
          rw [List.takeWhile_cons, if_pos hws]
          exact List.mem_cons_of_mem _ hm
        exact ih t2 hlt hpre2 w' r (fun d hd => hw d (List.mem_cons_of_mem _ hd)) h2

/-- The output of the blank-line collapse never contains a run of three line
feeds separated only by non-line-feed whitespace. -/
theorem nlSubF_nb : ∀ (f : Nat) (l : List Char), l.length ≤ f → noBadBlock (nlSubF f l) := by
  intro f
  induction f with
  | zero =>
    intro l hl
    cases l with
    | nil => rw [nlSubF_nil]; exact noBadBlock_nil
    | cons c t => simp at hl
  | succ m ih =>
    intro l hl
    cases l with
    | nil => rw [nlSubF_nil]; exact noBadBlock_nil
    | cons c t =>
      have hlt : t.length ≤ m := by simp at hl; omega
      by_cases hc : c = '\n'
      · subst hc
        cases hm : nlMatchLen t with
        | none =>
          rw [nlSubF_nl_none m t hm]
          intro u w1 w2 v h1 h2 he
          cases u with
          | nil =>
            rw [List.nil_append] at he
            injection he with _ he2
            exact nlSubF_np m t hlt (nlMatchLen_none hm) w1 (w2 ++ '\n' :: v) h1 he2
          | cons c' u' =>
            injection he with _ he2
            exact ih t hlt u' w1 w2 v h1 h2 he2
        | some k =>
          rw [nlSubF_nl_some m t k hm]
          have hdlen : (t.drop k).length ≤ m := by
            rw [List.length_drop]
            omega
          intro u w1 w2 v h1 h2 he
          cases u with
          | nil =>
            rw [List.nil_append] at he
            injection he with _ he2
            cases w1 with
            | nil =>
              injection he2 with _ he3
              exact nlSubF_np m (t.drop k) hdlen (nlMatchLen_some_drop hm) w2 v h2 he3
            | cons cw w1' =>
              injection he2 with he3 _
              have h4 := h1 cw (List.mem_cons_self _ _)
              rw [← he3] at h4
              exact absurd h4 (by decide)
          | cons c' u' =>
            injection he with _ he2
            cases u' with
            | nil =>
              injection he2 with _ he3
              exact nlSubF_np m (t.drop k) hdlen (nlMatchLen_some_drop hm) w1
                (w2 ++ '\n' :: v) h1 he3
            | cons c'' u'' =>
              injection he2 with _ he3
              exact ih (t.drop k) hdlen u'' w1 w2 v h1 h2 he3
      · rw [nlSubF_cons m c t hc]
        intro u w1 w2 v h1 h2 he
        cases u with
        | nil =>
          rw [List.nil_append] at he
          injection he with h3 _
          exact hc h3
        | cons c' u' =>
          injection he with _ he2
          exact ih t hlt u' w1 w2 v h1 h2 he2

theorem noBadBlock_nlSub (l : List Char) : noBadBlock (nlSub l) :=
  nlSubF_nb l.length l le_rfl

/-! ## Identity of the collapse passes on already-clean text -/

theorem nlSubF_id : ∀ (f : Nat) (l : List Char), l.length ≤ f → noNlWs l → noTriNl l →
    nlSubF f l = l := by
  intro f
  induction f with
  | zero => intro l _ _ _; exact nlSubF_zero l
  | succ m ih =>
    intro l hl h2 h3
    cases l with
    | nil => exact nlSubF_nil _
    | cons c t =>
      have hlt : t.length ≤ m := by simp at hl; omega
      by_cases hc : c = '\n'
      · subst hc
        cases t with
        | nil =>
          rw [nlSubF_nl_none m [] (by decide), nlSubF_nil]
        | cons w t2 =>
          have hwP : ¬ wsNN w = true := fun hw => h2 w hw ⟨[], t2, by simp⟩
          by_cases hwn : w = '\n'
          · subst hwn
            cases t2 with
            | nil =>
              rw [nlSubF_nl_some m ['\n'] 1 (by decide),
                show List.drop 1 ['\n'] = [] from rfl, nlSubF_nil]
            | cons w2 t3 =>
              have hw2n : ¬ w2 = '\n' := by
                intro e
                subst e
                exact h3 ⟨[], t3, by simp⟩
              have hw2nn : ¬ wsNN w2 = true := fun hw => h2 w2 hw ⟨['\n'], t3, by simp⟩
              have hw2ws : isPyWs w2 = false := by
                cases hws : isPyWs w2
                · rfl
                · exact absurd (wsNN_of_parts hws hw2n) hw2nn
              have htw : List.takeWhile isPyWs ('\n' :: w2 :: t3) = ['\n'] := by
                rw [List.takeWhile_cons, if_pos (by decide), List.takeWhile_cons,
                  if_neg (by simp [hw2ws])]
              have hml : nlMatchLen ('\n' :: w2 :: t3) = some 1 := by
                rw [nlMatchLen_eq, htw]
                decide
              rw [nlSubF_nl_some m ('\n' :: w2 :: t3) 1 hml,
                show List.drop 1 ('\n' :: w2 :: t3) = w2 :: t3 from rfl,
                ih (w2 :: t3) (by simp at hlt ⊢; omega)
                  (noNlWs_of_inf ⟨['\n', '\n'], [], by simp⟩ h2)
                  (noTriNl_of_inf ⟨['\n', '\n'], [], by simp⟩ h3)]
          · have hwws : isPyWs w = false := by
              cases hws : isPyWs w
              · rfl
              · exact absurd (wsNN_of_parts hws hwn) hwP
            have htw : List.takeWhile isPyWs (w :: t2) = [] := by
              rw [List.takeWhile_cons, if_neg (by simp [hwws])]
            have hml : nlMatchLen (w :: t2) = none := by
              rw [nlMatchLen_eq, htw]
              decide
            rw [nlSubF_nl_none m (w :: t2) hml,
              ih (w :: t2) hlt (noNlWs_of_inf ⟨['\n'], [], by simp⟩ h2)
                (noTriNl_of_inf ⟨['\n'], [], by simp⟩ h3)]
      · rw [nlSubF_cons m c t hc,
          ih t hlt (noNlWs_of_inf ⟨[c], [], by simp⟩ h2)
            (noTriNl_of_inf ⟨[c], [], by simp⟩ h3)]

theorem nlSub_id {l : List Char} (h2 : noNlWs l) (h3 : noTriNl l) : nlSub l = l :=
  nlSubF_id l.length l le_rfl h2 h3

/-! ## The space collapse: head preservation, transfer, identity -/

theorem spaceSubF_nil (f : Nat) : spaceSubF f [] = [] := by cases f <;> rfl

theorem spaceSubF_head : ∀ (f : Nat) (l : List Char), (spaceSubF f l).head? = l.head? := by
  intro f l
  induction f, l using spaceSubF.induct with
  | case1 t => rw [spaceSubF_nil]
  | case2 l h => rw [spaceSubF_zero]
  | case3 fuel t hh ih => rw [spaceSubF_sp_sp fuel t hh]; rfl
  | case4 fuel t hh ih => rw [spaceSubF_sp fuel t hh]; rfl
  | case5 fuel d t hd ih => rw [spaceSubF_cons fuel d t hd]; rfl

theorem spaces_pair (b : Char) : ∀ (u r : List Char), (∀ c ∈ u, c = ' ') →
    [' ', b] <:+: ' ' :: (u ++ b :: r) := by
  intro u
  induction u with
  | nil => intro r _; exact ⟨[], r, by simp⟩
  | cons c u' ih =>
    intro r h
    have hc : c = ' ' := h c (by simp)
    subst hc
    simpa using infConsLift ' ' (ih r (fun d hd => h d (List.mem_cons_of_mem _ hd)))

theorem spaceSubF_pre : ∀ (f : Nat) (l p : List Char), l.length ≤ f → ' ' ∉ p →
    p <+: spaceSubF f l → p <+: l := by
  intro f
  induction f with
  | zero => intro l p _ _ h; rwa [spaceSubF_zero] at h
  | succ m ih =>
    intro l p hl hsp h
    cases l with
    | nil => rwa [spaceSubF_nil] at h
    | cons c t =>
      have hlt : t.length ≤ m := by simp at hl; omega
      by_cases hc : c = ' '
      · subst hc
        cases p with
        | nil => exact ⟨' ' :: t, rfl⟩
        | cons pc p' =>
          obtain ⟨q, hq⟩ := h
          have hh : pc = ' ' := by
            by_cases hth : t.head? = some ' '
            · rw [spaceSubF_sp_sp m t hth] at hq
              injection hq with h1 _
            · rw [spaceSubF_sp m t hth] at hq
              injection hq with h1 _
          subst hh
          exact absurd (List.mem_cons_self _ _) hsp
      · rw [spaceSubF_cons m c t hc] at h
        cases p with
        | nil => exact ⟨c :: t, rfl⟩
        | cons pc p' =>
          obtain ⟨q, hq⟩ := h
          injection hq with h1 h2
          subst h1
          obtain ⟨q2, hq2⟩ := ih t p' hlt (fun hm => hsp (List.mem_cons_of_mem _ hm)) ⟨q, h2⟩
          exact ⟨q2, by rw [List.cons_append, hq2]⟩

theorem spaceSubF_inft : ∀ (f : Nat) (l p : List Char), l.length ≤ f → ' ' ∉ p →
    p <:+: spaceSubF f l → p <:+: l := by
  intro f
  induction f with
  | zero => intro l p _ _ h; rwa [spaceSubF_zero] at h
  | succ m ih =>
    intro l p hl hsp h
    cases l with
    | nil => rwa [spaceSubF_nil] at h
    | cons c t =>
      have hlt : t.length ≤ m := by simp at hl; omega
      by_cases hc : c = ' '
      · subst hc
        by_cases hth : t.head? = some ' '
        · rw [spaceSubF_sp_sp m t hth] at h
          rcases infConsSplit h with hp | hi
          · exact infOfPre (spaceSubF_pre (m + 1) (' ' :: t) p (by simpa using hl) hsp
              (by rw [spaceSubF_sp_sp m t hth]; exact hp))
          · have h4 := ih (t.dropWhile (fun d => d = ' ')) p
              (le_trans (sufLen (List.dropWhile_suffix _)) hlt) hsp hi
            exact infConsLift ' ' (infTrans h4 (infOfSuf (List.dropWhile_suffix _)))
        · rw [spaceSubF_sp m t hth] at h
          rcases infConsSplit h with hp | hi
          · exact infOfPre (spaceSubF_pre (m + 1) (' ' :: t) p (by simpa using hl) hsp
              (by rw [spaceSubF_sp m t hth]; exact hp))
          · exact infConsLift ' ' (ih t p hlt hsp hi)
      · rw [spaceSubF_cons m c t hc] at h
        rcases infConsSplit h with hp | hi
        · exact infOfPre (spaceSubF_pre (m + 1) (c :: t) p (by simpa using hl) hsp
            (by rw [spaceSubF_cons m c t hc]; exact hp))
        · exact infConsLift c (ih t p hlt hsp hi)

theorem spaceSubF_pair {a b : Char} :
    ∀ (f : Nat) (l : List Char), l.length ≤ f → [a, b] <:+: spaceSubF f l →
    [a, b] <:+: l := by
  intro f
  induction f with
  | zero => intro l _ h; rwa [spaceSubF_zero] at h
  | succ m ih =>
    intro l hl h
    cases l with
    | nil => rwa [spaceSubF_nil] at h
    | cons c t =>
      have hlt : t.length ≤ m := by simp at hl; omega
      by_cases hc : c = ' '
      · subst hc
        by_cases hth : t.head? = some ' '
        · rw [spaceSubF_sp_sp m t hth] at h
          rcases infConsSplit h with hp | hi
          · obtain ⟨q, hq⟩ := hp
            have ha : a = ' ' := by injection hq with h1 _
            have hb2 : (spaceSubF m (t.dropWhile (fun d => d = ' '))).head? = some b := by
              injection hq with _ h2
              rw [← h2]
              rfl
            rw [spaceSubF_head] at hb2
            have hsplit := List.takeWhile_append_dropWhile (fun d => decide (d = ' ')) t
            cases hdw : t.dropWhile (fun d => decide (d = ' ')) with
            | nil => rw [hdw] at hb2; cases hb2
            | cons d r =>
              have hdb : d = b := by
                rw [hdw] at hb2
                injection hb2 with h3
              have hall : ∀ c2 ∈ t.takeWhile (fun d => decide (d = ' ')), c2 = ' ' :=
                fun c2 hc2 => by simpa using List.mem_takeWhile_imp hc2
              have ht2 : t = t.takeWhile (fun d => decide (d = ' ')) ++ b :: r := by
                conv_lhs => rw [← hsplit]
                rw [hdw, hdb]
              subst ha
              rw [ht2]
              exact spaces_pair b _ r hall
          · have h4 := ih (t.dropWhile (fun d => d = ' '))
              (le_trans (sufLen (List.dropWhile_suffix _)) hlt) hi
            exact infConsLift ' ' (infTrans h4 (infOfSuf (List.dropWhile_suffix _)))
        · rw [spaceSubF_sp m t hth] at h
          rcases infConsSplit h with hp | hi
          · obtain ⟨q, hq⟩ := hp
            have ha : a = ' ' := by injection hq with h1 _
            have hb2 : (spaceSubF m t).head? = some b := by
              injection hq with _ h2
              rw [← h2]
              rfl
            rw [spaceSubF_head] at hb2
            cases t with
            | nil => cases hb2
            | cons d r =>
              have hdb : d = b := by injection hb2 with h3
              subst hdb
              subst ha
              exact ⟨[], r, by simp⟩
          · exact infConsLift ' ' (ih t hlt hi)
      · rw [spaceSubF_cons m c t hc] at h
        rcases infConsSplit h with hp | hi
        · obtain ⟨q, hq⟩ := hp
          have ha : a = c := by injection hq with h1 _
          have hb2 : (spaceSubF m t).head? = some b := by
            injection hq with _ h2
            rw [← h2]
            rfl
          rw [spaceSubF_head] at hb2
          cases t with
          | nil => cases hb2
          | cons d r =>
            have hdb : d = b := by injection hb2 with h3
            subst hdb
            subst ha
            exact ⟨[], r, by simp⟩
        · exact infConsLift c (ih t hlt hi)

theorem spaceSubF_noDbl : ∀ (f : Nat) (l : List Char), l.length ≤ f →
    noDblSp (spaceSubF f l) := by
  intro f
  induction f with
  | zero =>
    intro l hl
    cases l with
    | nil =>
      rw [spaceSubF_zero]
      intro h
      obtain ⟨s, t2, hst⟩ := h
      simp at hst
    | cons c t => simp at hl
  | succ m ih =>
    intro l hl
    cases l with
    | nil =>
      rw [spaceSubF_nil]
      intro h
      obtain ⟨s, t2, hst⟩ := h
      simp at hst
    | cons c t =>
      have hlt : t.length ≤ m := by simp at hl; omega
      by_cases hc : c = ' '
      · subst hc
        by_cases hth : t.head? = some ' '
        · rw [spaceSubF_sp_sp m t hth]
          intro h
          rcases infConsSplit h with hp | hi
          · obtain ⟨q, hq⟩ := hp
            have hb2 : (spaceSubF m (t.dropWhile (fun d => d = ' '))).head? = some ' ' := by
              injection hq with _ h2
              rw [← h2]
              rfl
            rw [spaceSubF_head] at hb2
            have h3 := head?_dropWhile (fun d => decide (d = ' ')) t ' ' hb2
            simp at h3
          · exact ih _ (le_trans (sufLen (List.dropWhile_suffix _)) hlt) hi
        · rw [spaceSubF_sp m t hth]
          intro h
          rcases infConsSplit h with hp | hi
          · obtain ⟨q, hq⟩ := hp
            have hb2 : (spaceSubF m t).head? = some ' ' := by
              injection hq with _ h2
              rw [← h2]
              rfl
            rw [spaceSubF_head] at hb2
            exact hth hb2
          · exact ih t hlt hi
      · rw [spaceSubF_cons m c t hc]
        intro h
        rcases infConsSplit h with hp | hi
        · obtain ⟨q, hq⟩ := hp
          exact hc (by injection hq with h1 _; exact h1.symm)
        · exact ih t hlt hi

theorem spaceSubF_id : ∀ (f : Nat) (l : List Char), l.length ≤ f → noDblSp l →
    spaceSubF f l = l := by
  intro f
  induction f with
  | zero => intro l _ _; exact spaceSubF_zero l
  | succ m ih =>
    intro l hl hd
    cases l with
    | nil => exact spaceSubF_nil _
    | cons c t =>
      have hlt : t.length ≤ m := by simp at hl; omega
      have hdt : noDblSp t := noDblSp_of_inf ⟨[c], [], by simp⟩ hd
      by_cases hc : c = ' '
      · subst hc
        have hth : ¬ t.head? = some ' ' := by
          intro hh
          cases t with
          | nil => cases hh
          | cons d r =>
            have hd2 : d = ' ' := by injection hh with h3
            subst hd2
            exact hd ⟨[], r, by simp⟩
        rw [spaceSubF_sp m t hth, ih t hlt hdt]
      · rw [spaceSubF_cons m c t hc, ih t hlt hdt]

theorem spaceSub_id {l : List Char} (h : noDblSp l) : spaceSub l = l :=
  spaceSubF_id l.length l le_rfl h

theorem spaceSub_noDbl (l : List Char) : noDblSp (spaceSub l) :=
  spaceSubF_noDbl l.length l le_rfl

/-! ## Lines of text with only line-feed boundaries -/

theorem headMem {l : List Char} {c : Char} (h : l.head? = some c) : c ∈ l := by
  cases l with
  | nil => cases h
  | cons a t =>
    injection h with h2
    subst h2
    exact List.mem_cons_self _ _

theorem line_nb {l : List Char} (hb : onlyNlBound l) :
    ∀ c ∈ l.takeWhile (fun c => c ≠ '\n'), isLineBoundChar c = false := by
  intro c hc
  cases hbc : isLineBoundChar c
  · rfl
  · exact absurd (hb c (List.Sublist.mem hc (List.takeWhile_sublist _)) hbc)
      (takeWhile_ne_nl hc)

theorem all_nb_of_no_nl {l : List Char} (hb : onlyNlBound l) (hnl : '\n' ∉ l) :
    ∀ c ∈ l, isLineBoundChar c = false := by
  intro c hc
  cases hbc : isLineBoundChar c
  · rfl
  · exact absurd (hb c hc hbc) (fun e => hnl (e ▸ hc))

/-- A joined stripped text beginning with a line feed begins with an
all-whitespace first line. -/
theorem jsl_head_nl : ∀ (r : List Char), onlyNlBound r →
    (joinStripLines r).head? = some '\n' →
    ∃ w2 v, (∀ c ∈ w2, wsNN c = true) ∧ r = w2 ++ '\n' :: v := by
  intro r hb hh
  by_cases hnl : '\n' ∈ r
  · obtain ⟨r3, hr3⟩ := nl_split r hnl
    have hlineb := line_nb hb
    cases r3 with
    | nil =>
      rw [hr3, jsl_end _ hlineb] at hh
      exfalso
      have hmem : '\n' ∈ stripL (r.takeWhile (fun c => c ≠ '\n')) := by
        cases hsl : stripL (r.takeWhile (fun c => c ≠ '\n')) with
        | nil => rw [hsl] at hh; cases hh
        | cons c2 t2 =>
          rw [hsl] at hh
          injection hh with h2
          subst h2
          exact List.mem_cons_self _ _
      exact takeWhile_ne_nl (mem_stripL hmem) rfl
    | cons d r4 =>
      rw [hr3, jsl_dec _ _ hlineb (by simp)] at hh
      cases hsl : stripL (r.takeWhile (fun c => c ≠ '\n')) with
      | nil =>
        refine ⟨r.takeWhile (fun c => c ≠ '\n'), d :: r4, ?_, hr3⟩
        intro c hc
        exact wsNN_of_parts (all_ws_of_stripL_nil hsl c hc) (takeWhile_ne_nl hc)
      | cons c2 t2 =>
        exfalso
        rw [hsl, List.cons_append, List.head?_cons] at hh
        injection hh with h2
        have hmem : '\n' ∈ stripL (r.takeWhile (fun c => c ≠ '\n')) := by
          rw [hsl, ← h2]
          exact List.mem_cons_self _ _
        exact takeWhile_ne_nl (mem_stripL hmem) rfl
  · exfalso
    rw [jsl_single r (all_nb_of_no_nl hb hnl)] at hh
    have hmem : '\n' ∈ stripL r := by
      cases hsl : stripL r with
      | nil => rw [hsl] at hh; cases hh
      | cons c2 t2 =>
        rw [hsl] at hh
        injection hh with h2
        subst h2
        exact List.mem_cons_self _ _
    exact hnl (mem_stripL hmem)

/-- A joined stripped text beginning with two line feeds begins with two
all-whitespace lines. -/
theorem jsl_dbl_nl : ∀ (r : List Char), onlyNlBound r →
    ['\n', '\n'] <+: joinStripLines r →
    ∃ w1 w2 v, (∀ c ∈ w1, wsNN c = true) ∧ (∀ c ∈ w2, wsNN c = true) ∧
      r = w1 ++ '\n' :: (w2 ++ '\n' :: v) := by
  intro r hb hp
  by_cases hnl : '\n' ∈ r
  · obtain ⟨r2, hr2⟩ := nl_split r hnl
    have hlineb := line_nb hb
    cases r2 with
    | nil =>
      exfalso
      rw [hr2, jsl_end _ hlineb] at hp
      obtain ⟨q, hq⟩ := hp
      have hmem : '\n' ∈ stripL (r.takeWhile (fun c => c ≠ '\n')) := by
        rw [← hq]
        simp
      exact takeWhile_ne_nl (mem_stripL hmem) rfl
    | cons d r4 =>
      rw [hr2, jsl_dec _ _ hlineb (by simp)] at hp
      obtain ⟨q, hq⟩ := hp
      cases hsl : stripL (r.takeWhile (fun c => c ≠ '\n')) with
      | cons c2 t2 =>
        exfalso
        rw [hsl, List.cons_append] at hq
        injection hq with h1 _
        have hmem : '\n' ∈ stripL (r.takeWhile (fun c => c ≠ '\n')) := by
          rw [hsl, h1]
          exact List.mem_cons_self _ _
        exact takeWhile_ne_nl (mem_stripL hmem) rfl
      | nil =>
        rw [hsl, List.nil_append] at hq
        injection hq with _ hq2
        have hhead : (joinStripLines (d :: r4)).head? = some '\n' := by
          rw [← hq2]
          rfl
        have hrinf : (d :: r4) <:+: r :=
          ⟨r.takeWhile (fun c => c ≠ '\n') ++ ['\n'], [], by
            conv_rhs => rw [hr2]
            simp⟩
        obtain ⟨w2, v, hw2, hdr⟩ := jsl_head_nl (d :: r4) (onlyNlBound_of_inf hrinf hb) hhead
        refine ⟨r.takeWhile (fun c => c ≠ '\n'), w2, v, ?_, hw2, ?_⟩
        · intro c hc
          exact wsNN_of_parts (all_ws_of_stripL_nil hsl c hc) (takeWhile_ne_nl hc)
        · conv_lhs => rw [hr2]
          rw [hdr]
  · exfalso
    rw [jsl_single r (all_nb_of_no_nl hb hnl)] at hp
    obtain ⟨q, hq⟩ := hp
    have hmem : '\n' ∈ stripL r := by
      rw [← hq]
      simp
    exact hnl (mem_stripL hmem)

/-- The invariants of a joined stripped text whose source has no bad block:
no whitespace hugs a line feed from either side, and no triple line feed. -/
theorem jsl_inv : ∀ (n : Nat) (l : List Char), l.length ≤ n → onlyNlBound l →
    noBadBlock l →
    noWsNl (joinStripLines l) ∧ noNlWs (joinStripLines l) ∧ noTriNl (joinStripLines l) := by
  intro n
  induction n with
  | zero =>
    intro l hl _ _
    cases l with
    | nil =>
      rw [jsl_nil]
      refine ⟨?_, ?_, ?_⟩
      · intro w _ h; obtain ⟨s, t2, hst⟩ := h; simp at hst
      · intro w _ h; obtain ⟨s, t2, hst⟩ := h; simp at hst
      · intro h; obtain ⟨s, t2, hst⟩ := h; simp at hst
    | cons c t => simp at hl
  | succ m ih =>
    intro l hl hb hnb
    by_cases hnl : '\n' ∈ l
    case neg =>
      rw [jsl_single l (all_nb_of_no_nl hb hnl)]
      have hnotin : '\n' ∉ stripL l := fun hm => hnl (mem_stripL hm)
      refine ⟨?_, ?_, ?_⟩
      · intro w _ h; exact hnotin (memOfInf h (by simp))
      · intro w _ h; exact hnotin (memOfInf h (by simp))
      · intro h; exact hnotin (memOfInf h (by simp))
    case pos =>
      obtain ⟨rest, hrest⟩ := nl_split l hnl
      have hlineb := line_nb hb
      cases rest with
      | nil =>
        rw [hrest, jsl_end _ hlineb]
        have hnotin : '\n' ∉ stripL (l.takeWhile (fun c => c ≠ '\n')) :=
          fun hm => takeWhile_ne_nl (mem_stripL hm) rfl
        refine ⟨?_, ?_, ?_⟩
        · intro w _ h; exact hnotin (memOfInf h (by simp))
        · intro w _ h; exact hnotin (memOfInf h (by simp))
        · intro h; exact hnotin (memOfInf h (by simp))
      | cons d rest2 =>
        rw [hrest, jsl_dec _ _ hlineb (by simp)]
        have hlen : (d :: rest2).length ≤ m := by
          have h2 := congrArg List.length hrest
          simp at h2 ⊢
          omega
        have hrinf : (d :: rest2) <:+: l :=
          ⟨l.takeWhile (fun c => c ≠ '\n') ++ ['\n'], [], by
            conv_rhs => rw [hrest]
            simp⟩
        obtain ⟨ihW, ihN, ihT⟩ := ih (d :: rest2) hlen (onlyNlBound_of_inf hrinf hb)
          (noBadBlock_of_inf hrinf hnb)
        have hAnl : '\n' ∉ stripL (l.takeWhile (fun c => c ≠ '\n')) :=
          fun hm => takeWhile_ne_nl (mem_stripL hm) rfl
        refine ⟨?_, ?_, ?_⟩
        · intro w hw hInf
          rcases pairSplitAppend _ _ hInf with h1 | h1 | ⟨h1, _⟩
          · exact hAnl (memOfInf h1 (by simp))
          · rcases infConsSplit h1 with hp | hi
            · obtain ⟨q, hq⟩ := hp
              injection hq with h2 _
              rw [h2] at hw
              exact absurd hw (by decide)
            · exact ihW w hw hi
          · have h3 := stripL_last_nws h1
            simp [ws_of_wsNN hw] at h3
        · intro w hw hInf
          rcases pairSplitAppend _ _ hInf with h1 | h1 | ⟨h1, _⟩
          · exact hAnl (memOfInf h1 (by simp))
          · rcases infConsSplit h1 with hp | hi
            · obtain ⟨q, hq⟩ := hp
              injection hq with _ hq2
              have hhead : (joinStripLines (d :: rest2)).head? = some w := by
                rw [← hq2]
                rfl
              rcases jsl_head hhead with hws | hwn
              · simp [ws_of_wsNN hw] at hws
              · exact (ne_nl_of_wsNN hw) hwn
            · exact ihN w hw hi
          · exact hAnl (lastMem h1)
        · intro hInf
          rcases triSplitAppend _ _ hInf with h1 | h1 | ⟨h1, _⟩ | ⟨h1, _⟩
          · exact hAnl (memOfInf h1 (by simp))
          · rcases infConsSplit h1 with hp | hi
            · obtain ⟨q, hq⟩ := hp
              injection hq with _ hq2
              obtain ⟨w1, w2, v, hw1, hw2, hreq⟩ :=
                jsl_dbl_nl (d :: rest2) (onlyNlBound_of_inf hrinf hb) ⟨q, hq2⟩
              refine hnb (l.takeWhile (fun c => c ≠ '\n')) w1 w2 v hw1 hw2 ?_
              conv_lhs => rw [hrest]
              rw [hreq]
            · exact ihT hi
          · exact hAnl (lastMem h1)
          · exact hAnl (memOfSuf h1 (by simp))

/-- On text satisfying the invariants, splitting into lines, stripping each
and rejoining is the identity. -/
theorem jsl_id : ∀ (n : Nat) (l : List Char), l.length ≤ n → onlyNlBound l →
    noWsNl l → noNlWs l →
    (∀ w, l.head? = some w → wsNN w = false) →
    (∀ w, l.getLast? = some w → isPyWs w = false) →
    joinStripLines l = l := by
  intro n
  induction n with
  | zero =>
    intro l hl _ _ _ _ _
    cases l with
    | nil => exact jsl_nil
    | cons c t => simp at hl
  | succ m ih =>
    intro l hl hb hwn hnw hhd hlast
    by_cases hnl : '\n' ∈ l
    case neg =>
      rw [jsl_single l (all_nb_of_no_nl hb hnl)]
      apply stripL_id_of_ends
      · intro c hc
        by_cases hcn : c = '\n'
        · subst hcn
          exact absurd (headMem hc) hnl
        · exact ws_false_of_wsNN_false (hhd c hc) hcn
      · exact hlast
    case pos =>
      obtain ⟨rest, hrest⟩ := nl_split l hnl
      have hlineb := line_nb hb
      cases rest with
      | nil =>
        exfalso
        have hlast2 : l.getLast? = some '\n' := by
          rw [hrest]
          exact List.getLast?_concat _
        exact absurd (hlast '\n' hlast2) (by decide)
      | cons d rest2 =>
        rw [hrest, jsl_dec _ _ hlineb (by simp)]
        have hline_id : stripL (l.takeWhile (fun c => c ≠ '\n')) =
            l.takeWhile (fun c => c ≠ '\n') := by
          apply stripL_id_of_ends
          · intro c hc
            have hhl : l.head? = some c := by
              rw [hrest]
              cases hcase : l.takeWhile (fun c => c ≠ '\n') with
              | nil => rw [hcase] at hc; cases hc
              | cons e line2 =>
                rw [hcase] at hc
                injection hc with h2
                rw [List.cons_append, List.head?_cons, h2]
            exact ws_false_of_wsNN_false (hhd c hhl) (takeWhile_ne_nl (headMem hc))
          · intro c hc
            obtain ⟨line0, hline0⟩ := List.getLast?_eq_some_iff.mp hc
            have hcne : c ≠ '\n' := takeWhile_ne_nl (by rw [hline0]; simp)
            cases hws : isPyWs c
            · rfl
            · exact absurd (hwn c (wsNN_of_parts hws hcne)
                ⟨line0, d :: rest2, by rw [hrest, hline0]; simp⟩) (fun h => h)
        have hlen : (d :: rest2).length ≤ m := by
          have h2 := congrArg List.length hrest
          simp at h2 ⊢
          omega
        have hrinf : (d :: rest2) <:+: l :=
          ⟨l.takeWhile (fun c => c ≠ '\n') ++ ['\n'], [], by
            conv_rhs => rw [hrest]
            simp⟩
        have hhd2 : ∀ w, (d :: rest2).head? = some w → wsNN w = false := by
          intro w hw
          injection hw with h2
          subst h2
          by_cases hd2 : wsNN d = true
          · refine absurd (hnw d hd2 ⟨l.takeWhile (fun c => c ≠ '\n'), rest2, ?_⟩)
              (fun h => h)
            conv_rhs => rw [hrest]
            simp
          · simpa using hd2
        have hlast2 : ∀ w, (d :: rest2).getLast? = some w → isPyWs w = false := by
          intro w hw
          apply hlast w
          rw [hrest, List.getLast?_append, List.getLast?_cons_cons, hw]
          rfl
        rw [ih (d :: rest2) hlen (onlyNlBound_of_inf hrinf hb) (noWsNl_of_inf hrinf hwn)
          (noNlWs_of_inf hrinf hnw) hhd2 hlast2, hline_id]

/-! ## Shape of a fully cleaned text -/

theorem mem_jsl {c : Char} {l : List Char} (h : c ∈ joinStripLines l) :
    c = '\n' ∨ (c ∈ l ∧ isLineBoundChar c = false) := by
  rw [joinStripLines] at h
  rcases mem_joinNL _ h with h1 | ⟨m, hm, hc⟩
  · exact Or.inl h1
  · rw [List.mem_map] at hm
    obtain ⟨m0, hm0, hms⟩ := hm
    have hcm0 : c ∈ m0 := mem_stripL (by rw [hms]; exact hc)
    rcases sgo_line_mem l [] m0 hm0 hcm0 with ⟨h2, h3⟩ | h2
    · exact Or.inr ⟨h2, h3⟩
    · simp at h2

theorem jsl_onlyNl (l : List Char) : onlyNlBound (joinStripLines l) := by
  intro c hc hb
  rcases mem_jsl hc with h | ⟨_, h2⟩
  · exact h
  · rw [hb] at h2; cases h2

/-- The invariants that hold of the final output of `clean_job_description`
whenever the intermediate text after step 1 has only line-feed boundaries
and no tabs. -/
theorem clean_shape_core (s1 : List Char) (hb1 : onlyNlBound s1) (ht1 : '\t' ∉ s1) :
    onlyNlBound (stripL (spaceSub (joinStripLines (nlSub s1)))) ∧
    '\t' ∉ stripL (spaceSub (joinStripLines (nlSub s1))) ∧
    noWsNl (stripL (spaceSub (joinStripLines (nlSub s1)))) ∧
    noNlWs (stripL (spaceSub (joinStripLines (nlSub s1)))) ∧
    noTriNl (stripL (spaceSub (joinStripLines (nlSub s1)))) ∧
    noDblSp (stripL (spaceSub (joinStripLines (nlSub s1)))) := by
  have hZb : onlyNlBound (nlSub s1) := by
    intro c hc hbc
    rcases mem_nlSubF s1.length s1 hc with h | h
    · exact h
    · exact hb1 c h hbc
  have hZt : '\t' ∉ nlSub s1 := by
    intro hm
    rcases mem_nlSubF s1.length s1 hm with h | h
    · exact absurd h (by decide)
    · exact ht1 h
  have hZnb : noBadBlock (nlSub s1) := noBadBlock_nlSub s1
  obtain ⟨hVw, hVn, hVt3⟩ := jsl_inv (nlSub s1).length (nlSub s1) le_rfl hZb hZnb
  have hVb : onlyNlBound (joinStripLines (nlSub s1)) := jsl_onlyNl _
  have hVtab : '\t' ∉ joinStripLines (nlSub s1) := by
    intro hm
    rcases mem_jsl hm with h | ⟨h, _⟩
    · exact absurd h (by decide)
    · exact hZt h
  have hWw : noWsNl (spaceSub (joinStripLines (nlSub s1))) := by
    intro w hw hInf
    exact hVw w hw
      (spaceSubF_pair (joinStripLines (nlSub s1)).length (joinStripLines (nlSub s1))
        le_rfl hInf)
  have hWn : noNlWs (spaceSub (joinStripLines (nlSub s1))) := by
    intro w hw hInf
    exact hVn w hw
      (spaceSubF_pair (joinStripLines (nlSub s1)).length (joinStripLines (nlSub s1))
        le_rfl hInf)
  have hWt3 : noTriNl (spaceSub (joinStripLines (nlSub s1))) := by
    intro hInf
    exact hVt3
      (spaceSubF_inft (joinStripLines (nlSub s1)).length (joinStripLines (nlSub s1)) _
        le_rfl (by decide) hInf)
  have hWd : noDblSp (spaceSub (joinStripLines (nlSub s1))) := spaceSub_noDbl _
  have hWb : onlyNlBound (spaceSub (joinStripLines (nlSub s1))) := by
    intro c hc hbc
    exact hVb c (mem_spaceSubF (joinStripLines (nlSub s1)).length _ hc) hbc
  have hWtab : '\t' ∉ spaceSub (joinStripLines (nlSub s1)) := by
    intro hm
    exact hVtab (mem_spaceSubF (joinStripLines (nlSub s1)).length _ hm)
  have hLinf := stripL_inf (spaceSub (joinStripLines (nlSub s1)))
  exact ⟨onlyNlBound_of_inf hLinf hWb, fun hm => hWtab (memOfInf hLinf hm),
    noWsNl_of_inf hLinf hWw, noNlWs_of_inf hLinf hWn, noTriNl_of_inf hLinf hWt3,
    noDblSp_of_inf hLinf hWd⟩

/-- On a character list satisfying the cleaned-shape invariants, every stage
of `clean_job_description` is the identity. -/
theorem clean_fix_core (L0 : List Char) (hb : onlyNlBound L0) (ht : '\t' ∉ L0)
    (hwn : noWsNl L0) (hnw : noNlWs L0) (htri : noTriNl L0) (hdbl : noDblSp L0)
    (hhd : ∀ w, L0.head? = some w → isPyWs w = false)
    (hlast : ∀ w, L0.getLast? = some w → isPyWs w = false)
    (hidem : stripL L0 = L0) :
    stripL (spaceSub (joinStripLines (nlSub (replCR (replCRLF (replTab L0)))))) = L0 := by
  have hr : '\r' ∉ L0 := by
    intro hm
    exact absurd (hb '\r' hm (by decide)) (by decide)
  have hhd2 : ∀ w, L0.head? = some w → wsNN w = false := fun w hw => by
    simp [wsNN, hhd w hw]
  rw [replTab_id ht, replCRLF_id hr, replCR_id hr, nlSub_id hnw htri,
    jsl_id L0.length L0 le_rfl hb hwn hnw hhd2 hlast, spaceSub_id hdbl, hidem]

/-- **C7 counterexample.** `clean_job_description` is not idempotent on a
text whose line boundaries include a vertical tab: the blank-line-collapsing
regex of step 2 runs before `splitlines` (step 3) turns `\x0b` into
separate lines, so a second pass collapses further. -/
theorem C7_counterexample :
    clean_job_description (clean_job_description "a\x0b\x0b\x0bb") ≠
      clean_job_description "a\x0b\x0b\x0bb" := by
  decide

/-- **C7 (amended).** `clean_job_description` is idempotent on every text
whose line-boundary characters are all `'\n'` or `'\r'` — in particular on
all ordinary job-description text; the failure of the unrestricted claim
concerns only the exotic `str.splitlines` boundaries
(`\x0b \x0c \x1c \x1d \x1e \x85` and the Unicode separators). -/
theorem C7_clean_idempotent (x : String)
    (H : ∀ c ∈ x.data, isLineBoundChar c = true → c = '\n' ∨ c = '\r') :
    clean_job_description (clean_job_description x) = clean_job_description x := by
  have hs1b : onlyNlBound (replCR (replCRLF (replTab x.data))) := by
    intro c hc hbc
    rcases mem_replCR hc with h | ⟨h1, h2⟩
    · exact h
    · rcases mem_replTab (mem_replCRLF h1) with h3 | ⟨h3, _⟩
      · rw [h3] at hbc
        exact absurd hbc (by decide)
      · rcases H c h3 hbc with h4 | h4
        · exact h4
        · exact absurd h4 h2
  have hs1t : '\t' ∉ replCR (replCRLF (replTab x.data)) := by
    intro hm
    rcases mem_replCR hm with h | ⟨h1, _⟩
    · exact absurd h (by decide)
    · rcases mem_replTab (mem_replCRLF h1) with h3 | ⟨_, h4⟩
      · exact absurd h3 (by decide)
      · exact h4 rfl
  obtain ⟨hLb, hLt, hLw, hLn, hL3, hLd⟩ :=
    clean_shape_core (replCR (replCRLF (replTab x.data))) hs1b hs1t
  have hgoal :
      stripL (spaceSub (joinStripLines (nlSub (replCR (replCRLF (replTab
        (stripL (spaceSub (joinStripLines (nlSub (replCR (replCRLF
          (replTab x.data))))))))))))) =
      stripL (spaceSub (joinStripLines (nlSub (replCR (replCRLF (replTab x.data)))))) :=
    clean_fix_core _ hLb hLt hLw hLn hL3 hLd
      (fun w hw => stripL_head_nws hw) (fun w hw => stripL_last_nws hw)
      (stripL_idem _)
  exact congrArg String.mk hgoal

/-- Witness for C7 (amended): a benign text with spaces, a blank line and a
CRLF ending evaluates, and a second application leaves it unchanged. -/
theorem C7_clean_idempotent_witness :
    clean_job_description "a \n\n  b\r\nc" = "a\n\nb\nc" ∧
    clean_job_description (clean_job_description "a \n\n  b\r\nc") =
      clean_job_description "a \n\n  b\r\nc" :=
  ⟨by decide, C7_clean_idempotent "a \n\n  b\r\nc" (by decide)⟩

end LIPipe
